import Mathlib

/-!
Verification of the aperture-bot orchestration core.

This file shallowly embeds the orchestration layer of the repository —
the per-session message queue, the session context store and its read
window, the memory compactor, the quiet-hours check of the heartbeat
scheduler, the events watcher poll, and the hub's message / proactive
turn handling — and proves the specified properties about the embedded
definitions.

Conventions of the embedding:
* pure TypeScript functions become Lean functions over the same data;
* the append-only context log of a session is a `List StoredMessage`;
* JavaScript `Array.prototype.slice` (including its negative-index
  normalization) is modelled by `jsSlice`;
* effects of the hub (audit entries, channel sends, context appends)
  are reified as a `List Effect` in program order;
* the promise-chain of `MessageQueue.enqueue` is modelled as a small-step
  transition system over an explicit queue/promise state.
-/

namespace Aperture

/-- One persisted turn-event of a session context log (`StoredMessage`
in `session-manager.ts`).  `content` is kept as plain text: none of the
verified properties inspects structured content. -/
structure StoredMessage where
  role : String
  content : String
  timestamp : Int
deriving DecidableEq, Repr

/-! ## JavaScript array slicing -/

/-- Normalize a possibly negative JavaScript slice index against a list
of length `len` (ECMAScript `ToIntegerOrInfinity` plus clamping). -/
def jsIndex (len : Nat) (i : Int) : Nat :=
  if i < 0 then ((len : Int) + i).toNat else min i.toNat len

/-- JavaScript `Array.prototype.slice(start, stop)` on a Lean list. -/
def jsSlice (l : List α) (start stop : Int) : List α :=
  (l.take (jsIndex l.length stop)).drop (jsIndex l.length start)

/-- JavaScript `Array.prototype.slice(-w)`: the last `w` elements when
`0 < w ≤ length`; the whole array when `w = 0` (since `-0` is `+0`). -/
def jsSliceLast (l : List α) (w : Nat) : List α :=
  jsSlice l (-(w : Int)) (l.length : Int)

/-- JavaScript `String.prototype.trim()`: strip whitespace from both
ends (modelled on the underlying character list so that it is fully
executable in the kernel). -/
def jsTrim (s : String) : String :=
  ⟨((s.data.dropWhile Char.isWhitespace).reverse.dropWhile Char.isWhitespace).reverse⟩

/-- JavaScript `String.prototype.endsWith`. -/
def strEndsWith (s suffix : String) : Bool :=
  suffix.data.isSuffixOf s.data

/-! ## Session manager (`session-manager.ts`) -/

/-- Per-session storage: each session id has an append-only context log. -/
def SessionStore : Type := String → List StoredMessage

/-- Default `maxContextMessages` of `SessionManager`. -/
def maxContextDefault : Nat := 50

/-- Load all context messages for a session (`SessionManager.loadContext`;
a missing log reads back as the empty list, as `readJsonl` returns `[]`
for an absent file). -/
def loadContext (store : SessionStore) (sessionId : String) : List StoredMessage :=
  store sessionId

/-- Append one message to a session context (`SessionManager.appendContext`). -/
def appendContext (store : SessionStore) (sessionId : String) (m : StoredMessage) :
    SessionStore :=
  fun sid => if sid = sessionId then store sid ++ [m] else store sid

/-- Append several messages in order (`SessionManager.appendContextBatch`). -/
def appendContextBatch (store : SessionStore) (sessionId : String)
    (msgs : List StoredMessage) : SessionStore :=
  msgs.foldl (fun st m => appendContext st sessionId m) store

/-- Windowed read of recent context (`SessionManager.getRecentContext`):
returns all messages when there are at most `maxContextMessages` of them,
otherwise `messages.slice(-maxContextMessages)`.  The store is returned
unchanged: the method only reads. -/
def getRecentContext (maxContextMessages : Nat) (store : SessionStore)
    (sessionId : String) : List StoredMessage × SessionStore :=
  let messages := loadContext store sessionId
  if messages.length ≤ maxContextMessages then (messages, store)
  else (jsSliceLast messages maxContextMessages, store)

/-! ## Quiet hours (`heartbeat.ts`, `isQuietHours`) -/

/-- Minute-of-day of `h:mm`, as computed by `isQuietHours` from the
parsed `HH:MM` strings (`startH * 60 + startM`). -/
def minuteOfDay (h m : Nat) : Nat := h * 60 + m

/-- Quiet-hours membership test (`isQuietHours`), taking the window
bounds and the current time in minute-of-day form. -/
def isQuietHours (startMinutes endMinutes currentMinutes : Nat) : Bool :=
  if startMinutes ≤ endMinutes then
    decide (startMinutes ≤ currentMinutes) && decide (currentMinutes < endMinutes)
  else
    decide (startMinutes ≤ currentMinutes) || decide (currentMinutes < endMinutes)

/-! ## Memory compactor (`memory-compactor.ts`) -/

/-- Role of the synthetic compaction-marker entry. -/
def compactionMarkerRole : String := "_compaction_marker"

/-- Sentinel output of the fact-extraction call meaning nothing new. -/
def nothingNewMarker : String := "[NOTHING_NEW]"

/-- Default `compactionThreshold` of `MemoryCompactor`. -/
def compactionThresholdDefault : Nat := 30

/-- Number of trailing messages excluded from a compaction span (the
local constant `keepRecent` in `maybeCompact`). -/
def keepRecent : Nat := 10

/-- Index of the last compaction marker, scanning the log from the end
(`none` when there is no marker). -/
def lastMarkerIdx : List StoredMessage → Option Nat
  | [] => none
  | m :: rest =>
    match lastMarkerIdx rest with
    | some i => some (i + 1)
    | none => if m.role = compactionMarkerRole then some 0 else none

/-- The function `findLastCompactionMarker`: index of the last
compaction marker, `-1` when absent. -/
def findLastCompactionMarker (messages : List StoredMessage) : Int :=
  match lastMarkerIdx messages with
  | some i => (i : Int)
  | none => -1

/-- The compaction marker appended after a compaction pass:
role `_compaction_marker`, content `Compacted N messages`. -/
def compactionMarker (count : Nat) (ts : Int) : StoredMessage :=
  ⟨compactionMarkerRole, "Compacted " ++ toString count ++ " messages", ts⟩

/-- Result of the fact-extraction LLM call: `ok` with the (already
trimmed) extracted text, or `fail` when the call throws. -/
inductive LlmOutcome where
  | ok (extracted : String)
  | fail
deriving DecidableEq, Repr

/-- The `appendMemory` helper: the memory document grows by one dated
section; nothing already written is changed. -/
def appendMemory (today existing newFacts : String) : String :=
  existing ++ "\n## Extracted " ++ today ++ "\n" ++ newFacts ++ "\n"

/-- Observable outcome of one `maybeCompact` call: the session context
log after the call, the long-term memory document after the call, and
the span of messages selected for fact extraction (empty when no
extraction ran). -/
structure CompactResult where
  log : List StoredMessage
  memory : String
  selectedSpan : List StoredMessage
deriving DecidableEq, Repr

/-- The `MemoryCompactor.maybeCompact` pass over a context log `log`
and memory document `memory`: return early unless at least
`compactionThreshold` messages lie strictly after the last compaction
marker; otherwise select the span from right after the last marker up
to `keepRecent` messages before the end, call the extraction LLM
(outcome `llm`), append a dated memory section unless the result trims
to the nothing-new sentinel, and append one compaction marker; a
thrown extraction call leaves both documents unchanged. -/
def maybeCompact (compactionThreshold : Nat) (llm : LlmOutcome) (ts : Int)
    (today : String) (memory : String) (log : List StoredMessage) : CompactResult :=
  if log.length < compactionThreshold then ⟨log, memory, []⟩
  else
    let lastCompactionIndex := findLastCompactionMarker log
    let uncompactedCount : Int := (log.length : Int) - lastCompactionIndex - 1
    if uncompactedCount < (compactionThreshold : Int) then ⟨log, memory, []⟩
    else
      let toCompact :=
        jsSlice log (lastCompactionIndex + 1) ((log.length : Int) - (keepRecent : Int))
      if toCompact.length = 0 then ⟨log, memory, []⟩
      else
        match llm with
        | .fail => ⟨log, memory, toCompact⟩
        | .ok extracted =>
          let memory' :=
            if jsTrim extracted = nothingNewMarker then memory
            else appendMemory today memory extracted
          ⟨log ++ [compactionMarker toCompact.length ts], memory', toCompact⟩

/-! ## Theorems: session windowing (C2) and quiet hours (C5, C6) -/

/-- Slicing off the last `w` elements: for positive `w`,
`l.slice(-w)` is `l.drop (l.length - w)`. -/
lemma jsSliceLast_eq_drop (l : List α) (w : Nat) (hw : 0 < w) :
    jsSliceLast l w = l.drop (l.length - w) := by
  unfold jsSliceLast jsSlice jsIndex
  have h1 : ¬ ((l.length : Int) < 0) := by omega
  have h2 : (-(w : Int) < 0) := by omega
  have h3 : ((l.length : Int) + -(w : Int)).toNat = l.length - w := by omega
  have h4 : (l.length : Int).toNat = l.length := by omega
  simp [h1, h2, h3, h4]

/-- C2: `getRecentContext` returns at most the configured window size
`W` of messages, the returned list is exactly the last
`min W N` elements — a suffix — of the `loadContext` result of `N`
messages, and the store is unchanged by the call. -/
theorem getRecentContext_windowed (maxContextMessages : Nat)
    (hW : 0 < maxContextMessages) (store : SessionStore) (sessionId : String) :
    (getRecentContext maxContextMessages store sessionId).1.length ≤ maxContextMessages
    ∧ (getRecentContext maxContextMessages store sessionId).1
        = (loadContext store sessionId).drop
            ((loadContext store sessionId).length
              - min maxContextMessages (loadContext store sessionId).length)
    ∧ (getRecentContext maxContextMessages store sessionId).2 = store := by
  unfold getRecentContext
  by_cases h : (loadContext store sessionId).length ≤ maxContextMessages
  · have hmin : min maxContextMessages (loadContext store sessionId).length
        = (loadContext store sessionId).length := min_eq_right h
    simp [h, hmin]
  · push_neg at h
    have hle : maxContextMessages ≤ (loadContext store sessionId).length := le_of_lt h
    have hmin : min maxContextMessages (loadContext store sessionId).length
        = maxContextMessages := min_eq_left hle
    have hslice := jsSliceLast_eq_drop (loadContext store sessionId) maxContextMessages hW
    refine ⟨?_, ?_, ?_⟩
    · simp only [if_neg (not_le.mpr h), hslice, List.length_drop]
      omega
    · simp only [if_neg (not_le.mpr h), hslice, hmin]
    · simp only [if_neg (not_le.mpr h)]

/-- Witness for C2 at a concrete store and the default window size 50. -/
theorem getRecentContext_windowed_witness :
    (0 < maxContextDefault)
    ∧ ((getRecentContext maxContextDefault (fun _ => []) ("s1")).1.length
          ≤ maxContextDefault
        ∧ (getRecentContext maxContextDefault (fun _ => []) ("s1")).1
            = (loadContext (fun _ => []) ("s1")).drop
                ((loadContext (fun _ => []) ("s1")).length
                  - min maxContextDefault (loadContext (fun _ => []) ("s1")).length)
        ∧ (getRecentContext maxContextDefault (fun _ => []) ("s1")).2
            = (fun _ => [])) :=
  ⟨by decide, getRecentContext_windowed maxContextDefault (by decide) (fun _ => []) ("s1")⟩

/-- C5: the quiet-hours window is `[start, end)` in minute-of-day; when
`start ≤ end` it is a same-day interval (`start ≤ now < end`), otherwise
it wraps past midnight (`now ≥ start ∨ now < end`); in particular with
start 22:00 and end 06:00, 23:30 and 02:00 are quiet and 10:00 is not. -/
theorem isQuietHours_spec :
    (∀ startMinutes endMinutes now : Nat,
        isQuietHours startMinutes endMinutes now = true ↔
          (if startMinutes ≤ endMinutes then startMinutes ≤ now ∧ now < endMinutes
           else startMinutes ≤ now ∨ now < endMinutes))
    ∧ isQuietHours (minuteOfDay 22 0) (minuteOfDay 6 0) (minuteOfDay 23 30) = true
    ∧ isQuietHours (minuteOfDay 22 0) (minuteOfDay 6 0) (minuteOfDay 2 0) = true
    ∧ isQuietHours (minuteOfDay 22 0) (minuteOfDay 6 0) (minuteOfDay 10 0) = false := by
  refine ⟨fun s e now => ?_, by decide, by decide, by decide⟩
  unfold isQuietHours
  by_cases h : s ≤ e <;> simp [h]

/-- C6 counterexample: with start 08:00 and end 20:00 the code deems
09:00 quiet and 21:00 not quiet, so the claimed example (09:00 not
quiet, 21:00 quiet) is false. -/
theorem quietHours_daytime_claim_false :
    ¬(isQuietHours (minuteOfDay 8 0) (minuteOfDay 20 0) (minuteOfDay 9 0) = false
      ∧ isQuietHours (minuteOfDay 8 0) (minuteOfDay 20 0) (minuteOfDay 21 0) = true) := by
  decide

/-- C6 amended: with start 08:00 and end 20:00 (a same-day window),
09:00 is quiet and 21:00 is not quiet. -/
theorem quietHours_daytime_example :
    isQuietHours (minuteOfDay 8 0) (minuteOfDay 20 0) (minuteOfDay 9 0) = true
    ∧ isQuietHours (minuteOfDay 8 0) (minuteOfDay 20 0) (minuteOfDay 21 0) = false := by
  decide

/-! ## Theorems: memory compaction (C3, C4) -/

/-- First log position strictly after the last compaction marker
(`0` when there is no marker): the lower bound of a compaction span. -/
def markerBound (log : List StoredMessage) : Nat :=
  match lastMarkerIdx log with
  | some i => i + 1
  | none => 0

lemma lastMarkerIdx_lt_length {log : List StoredMessage} {i : Nat}
    (h : lastMarkerIdx log = some i) : i < log.length := by
  induction log generalizing i with
  | nil => simp [lastMarkerIdx] at h
  | cons m rest ih =>
    simp only [lastMarkerIdx] at h
    cases hr : lastMarkerIdx rest with
    | some j =>
      rw [hr] at h
      cases h
      exact Nat.succ_lt_succ (ih hr)
    | none =>
      rw [hr] at h
      by_cases hm : m.role = compactionMarkerRole
      · rw [if_pos hm] at h
        cases h
        exact Nat.succ_pos _
      · rw [if_neg hm] at h
        cases h

lemma lastMarkerIdx_append_single (log : List StoredMessage) (m : StoredMessage) :
    lastMarkerIdx (log ++ [m])
      = if m.role = compactionMarkerRole then some log.length else lastMarkerIdx log := by
  induction log with
  | nil =>
    by_cases hm : m.role = compactionMarkerRole <;>
      simp [lastMarkerIdx, hm]
  | cons x rest ih =>
    by_cases hm : m.role = compactionMarkerRole
    · simp only [List.cons_append, lastMarkerIdx, List.append_eq, ih, if_pos hm,
        List.length_cons]
    · simp only [List.cons_append, lastMarkerIdx, List.append_eq, ih, if_neg hm]

lemma jsIndex_ofNat (len n : Nat) : jsIndex len (n : Int) = min n len := by
  unfold jsIndex
  have h : ¬ ((n : Int) < 0) := by omega
  rw [if_neg h, Int.toNat_ofNat]

lemma jsIndex_len_sub (len k : Nat) (h : k ≤ len) :
    jsIndex len ((len : Int) - (k : Int)) = len - k := by
  unfold jsIndex
  have h1 : ¬ ((len : Int) - (k : Int) < 0) := by omega
  rw [if_neg h1]
  omega

/-- The compaction span is the part of the log strictly after the last
marker and short of the last `keepRecent` messages. -/
lemma compaction_span_eq (log : List StoredMessage) (hk : keepRecent ≤ log.length) :
    jsSlice log (findLastCompactionMarker log + 1)
        ((log.length : Int) - (keepRecent : Int))
      = (log.take (log.length - keepRecent)).drop (markerBound log) := by
  unfold jsSlice
  rw [jsIndex_len_sub _ _ hk]
  unfold findLastCompactionMarker markerBound
  cases h : lastMarkerIdx log with
  | none =>
    have h0 : (-1 + 1 : Int) = ((0 : Nat) : Int) := by omega
    rw [h0, jsIndex_ofNat]
    simp
  | some i =>
    have hi : i < log.length := lastMarkerIdx_lt_length h
    have h1 : ((i : Int) + 1) = ((i + 1 : Nat) : Int) := by omega
    rw [h1, jsIndex_ofNat]
    have h2 : min (i + 1) log.length = i + 1 := by omega
    rw [h2]

/-- The uncompacted count computed by `maybeCompact` equals
`log.length - markerBound log` (as a natural number). -/
lemma uncompacted_eq (log : List StoredMessage) :
    (log.length : Int) - findLastCompactionMarker log - 1
      = ((log.length - markerBound log : Nat) : Int) := by
  unfold findLastCompactionMarker markerBound
  cases h : lastMarkerIdx log with
  | none => simp
  | some i =>
    have hi : i < log.length := lastMarkerIdx_lt_length h
    simp only []
    omega

lemma markerBound_le {log : List StoredMessage} : markerBound log ≤ log.length := by
  unfold markerBound
  cases h : lastMarkerIdx log with
  | none => exact Nat.zero_le _
  | some i => exact lastMarkerIdx_lt_length h

/-- On a log with at least `compactionThreshold` uncompacted messages, a
successful extraction call makes `maybeCompact` append exactly one
compaction marker and rewrite memory according to the sentinel check. -/
lemma maybeCompact_fire (s : String) (ts : Int) (today mem : String)
    (log : List StoredMessage)
    (hfire : (compactionThresholdDefault : Int)
        ≤ (log.length : Int) - findLastCompactionMarker log - 1) :
    maybeCompact compactionThresholdDefault (LlmOutcome.ok s) ts today mem log
      = ⟨log ++ [compactionMarker
            ((log.take (log.length - keepRecent)).drop (markerBound log)).length ts],
          if jsTrim s = nothingNewMarker then mem else appendMemory today mem s,
          (log.take (log.length - keepRecent)).drop (markerBound log)⟩ := by
  have hmb : markerBound log ≤ log.length := markerBound_le
  rw [uncompacted_eq] at hfire
  have hthr : compactionThresholdDefault ≤ log.length - markerBound log := by
    exact_mod_cast hfire
  have hlen : compactionThresholdDefault ≤ log.length := le_trans hthr (Nat.sub_le _ _)
  have hk : keepRecent ≤ log.length := by
    unfold keepRecent
    unfold compactionThresholdDefault at hlen
    omega
  have hspan := compaction_span_eq log hk
  have hspanlen : ((log.take (log.length - keepRecent)).drop (markerBound log)).length
      = log.length - keepRecent - markerBound log := by
    rw [List.length_drop, List.length_take]
    omega
  have hne : ¬ (((log.take (log.length - keepRecent)).drop (markerBound log)).length = 0) := by
    rw [hspanlen]
    unfold keepRecent
    unfold compactionThresholdDefault at hthr
    omega
  unfold maybeCompact
  rw [if_neg (by omega : ¬ (log.length < compactionThresholdDefault))]
  simp only []
  rw [uncompacted_eq]
  rw [if_neg (by exact_mod_cast not_lt.mpr hfire :
        ¬ (((log.length - markerBound log : Nat) : Int) < (compactionThresholdDefault : Int)))]
  rw [hspan, if_neg hne]

/-- C3: `maybeCompact` does nothing when fewer than the threshold many
messages lie after the last compaction marker; when it fires (default
threshold 30) it selects exactly the span from right after the last
marker to `keepRecent = 10` messages before the end of the log, appends
exactly one compaction marker, and an immediate second call with no new
messages is a no-op. -/
theorem maybeCompact_threshold_behavior :
    (∀ (thr : Nat) (llm : LlmOutcome) (ts : Int) (today mem : String)
        (log : List StoredMessage),
      (log.length : Int) - findLastCompactionMarker log - 1 < (thr : Int) →
      maybeCompact thr llm ts today mem log = ⟨log, mem, []⟩)
    ∧ (∀ (s : String) (ts : Int) (today mem : String) (log : List StoredMessage),
      (compactionThresholdDefault : Int)
          ≤ (log.length : Int) - findLastCompactionMarker log - 1 →
      (maybeCompact compactionThresholdDefault (LlmOutcome.ok s) ts today mem log).selectedSpan
          = (log.take (log.length - keepRecent)).drop (markerBound log)
      ∧ (maybeCompact compactionThresholdDefault (LlmOutcome.ok s) ts today mem log).log
          = log ++ [compactionMarker
              ((log.take (log.length - keepRecent)).drop (markerBound log)).length ts])
    ∧ (∀ (s : String) (llm' : LlmOutcome) (ts ts' : Int) (today today' mem : String)
        (log : List StoredMessage),
      (compactionThresholdDefault : Int)
          ≤ (log.length : Int) - findLastCompactionMarker log - 1 →
      maybeCompact compactionThresholdDefault llm' ts' today'
          (maybeCompact compactionThresholdDefault (LlmOutcome.ok s) ts today mem log).memory
          (maybeCompact compactionThresholdDefault (LlmOutcome.ok s) ts today mem log).log
        = ⟨(maybeCompact compactionThresholdDefault (LlmOutcome.ok s) ts today mem log).log,
            (maybeCompact compactionThresholdDefault (LlmOutcome.ok s) ts today mem log).memory,
            []⟩) := by
  refine ⟨?_, ?_, ?_⟩
  · intro thr llm ts today mem log h
    unfold maybeCompact
    by_cases h1 : log.length < thr
    · rw [if_pos h1]
    · rw [if_neg h1]
      simp only []
      rw [if_pos h]
  · intro s ts today mem log hfire
    rw [maybeCompact_fire s ts today mem log hfire]
    exact ⟨rfl, rfl⟩
  · intro s llm' ts ts' today today' mem log hfire
    rw [maybeCompact_fire s ts today mem log hfire]
    simp only []
    have hmb : markerBound log ≤ log.length := markerBound_le
    rw [uncompacted_eq] at hfire
    have hthr : compactionThresholdDefault ≤ log.length - markerBound log := by
      exact_mod_cast hfire
    have hlen : compactionThresholdDefault ≤ log.length := le_trans hthr (Nat.sub_le _ _)
    set mk := compactionMarker
      ((log.take (log.length - keepRecent)).drop (markerBound log)).length ts with hmk
    have hrole : mk.role = compactionMarkerRole := rfl
    have hflcm : findLastCompactionMarker (log ++ [mk]) = (log.length : Int) := by
      unfold findLastCompactionMarker
      rw [lastMarkerIdx_append_single, if_pos hrole]
    unfold maybeCompact
    rw [if_neg (by
      rw [List.length_append, List.length_singleton]
      unfold compactionThresholdDefault at hlen ⊢
      omega : ¬ ((log ++ [mk]).length < compactionThresholdDefault))]
    simp only []
    rw [hflcm]
    rw [if_pos (by
      rw [List.length_append, List.length_singleton]
      unfold compactionThresholdDefault
      push_cast
      omega : ((log ++ [mk]).length : Int) - (log.length : Int) - 1
        < (compactionThresholdDefault : Int))]

/-- Witness for C3 on a concrete 40-message log with no prior marker. -/
theorem maybeCompact_threshold_behavior_witness :
    ((List.replicate 40 (⟨"user", "hi", 0⟩ : StoredMessage)).length : Int)
        - findLastCompactionMarker (List.replicate 40 ⟨"user", "hi", 0⟩) - 1 < ((50 : Nat) : Int)
    ∧ maybeCompact 50 LlmOutcome.fail 0 ("d") ("m")
        (List.replicate 40 ⟨"user", "hi", 0⟩)
      = ⟨List.replicate 40 ⟨"user", "hi", 0⟩, "m", []⟩ :=
  ⟨by decide, maybeCompact_threshold_behavior.1 50 LlmOutcome.fail 0 ("d") ("m")
      (List.replicate 40 ⟨"user", "hi", 0⟩) (by decide)⟩

/-- C4 counterexample: on a 40-message log with no prior marker, a
compaction pass whose extraction call returns exactly the nothing-new
sentinel leaves the memory document unchanged but still appends a
compaction marker to the context log — contradicting the claim that no
compaction-marker is appended in the sentinel case. -/
theorem maybeCompact_sentinel_marker_counterexample :
    (maybeCompact compactionThresholdDefault (LlmOutcome.ok nothingNewMarker) 5
        ("2026-10-12") ("old memory") (List.replicate 40 ⟨"user", "hi", 0⟩)).memory
      = "old memory"
    ∧ (maybeCompact compactionThresholdDefault (LlmOutcome.ok nothingNewMarker) 5
        ("2026-10-12") ("old memory") (List.replicate 40 ⟨"user", "hi", 0⟩)).log
      = List.replicate 40 ⟨"user", "hi", 0⟩ ++ [compactionMarker 30 5] := by
  decide

/-- C4 amended: when the extraction result of a firing compaction pass
trims to the nothing-new sentinel, the memory document is unchanged —
no dated section is appended — but one compaction marker is still
appended to the context log; in the non-sentinel case the pass appends
one dated section to the memory document and the same single marker. -/
theorem maybeCompact_sentinel_behavior (s : String) (ts : Int) (today mem : String)
    (log : List StoredMessage)
    (hfire : (compactionThresholdDefault : Int)
        ≤ (log.length : Int) - findLastCompactionMarker log - 1) :
    ((jsTrim s = nothingNewMarker →
        (maybeCompact compactionThresholdDefault (LlmOutcome.ok s) ts today mem log).memory
          = mem)
     ∧ (jsTrim s ≠ nothingNewMarker →
        (maybeCompact compactionThresholdDefault (LlmOutcome.ok s) ts today mem log).memory
          = appendMemory today mem s)
     ∧ (maybeCompact compactionThresholdDefault (LlmOutcome.ok s) ts today mem log).log
        = log ++ [compactionMarker
            ((log.take (log.length - keepRecent)).drop (markerBound log)).length ts]) := by
  rw [maybeCompact_fire s ts today mem log hfire]
  refine ⟨fun h => ?_, fun h => ?_, rfl⟩
  · simp only [if_pos h]
  · simp only [if_neg h]

/-- Witness for C4 on a concrete 40-message log and the sentinel. -/
theorem maybeCompact_sentinel_behavior_witness :
    ((compactionThresholdDefault : Int)
        ≤ ((List.replicate 40 (⟨"user", "hi", 0⟩ : StoredMessage)).length : Int)
          - findLastCompactionMarker (List.replicate 40 ⟨"user", "hi", 0⟩) - 1)
    ∧ (maybeCompact compactionThresholdDefault (LlmOutcome.ok nothingNewMarker) 5
        ("d") ("m") (List.replicate 40 ⟨"user", "hi", 0⟩)).memory = "m" :=
  ⟨by decide,
    (maybeCompact_sentinel_behavior nothingNewMarker 5 ("d") ("m")
      (List.replicate 40 ⟨"user", "hi", 0⟩) (by decide)).1 (by decide)⟩

/-! ## Events watcher (`events-watcher.ts`) -/

/-- The `type` field of a `ScheduledEvent`. -/
inductive EType where
  | immediate
  | oneShot
  | periodic
deriving DecidableEq, Repr

/-- A parsed `ScheduledEvent` trigger file.  `triggerAt` is the parsed
trigger time in epoch milliseconds; `none` models a missing or
unparsable (`NaN`) timestamp, for which the `Date.now() >= triggerTime`
comparison can never succeed. -/
structure SEvent where
  id : String
  etype : EType
  prompt : String
  channel : String
  triggerAt : Option Int
deriving DecidableEq, Repr

/-- What reading and parsing one dropped file yields: a parse or I/O
error, or a `ScheduledEvent`. -/
inductive FileContent where
  | malformed
  | event (e : SEvent)
deriving DecidableEq, Repr

/-- One file of the watched events directory, together with whether the
`onEvent` callback would throw for it during this poll. -/
structure EventFile where
  name : String
  content : FileContent
  callbackFails : Bool
deriving DecidableEq, Repr

/-- Per-file outcome of one poll. -/
inductive FileOutcome where
  /-- Not a `.json` file: skipped without reading. -/
  | skipped
  /-- Left in place untouched (future or timestampless one-shot, periodic). -/
  | kept
  /-- Callback fired and file deleted. -/
  | fired (e : SEvent)
  /-- An error was caught for this file (parse error, or the callback
  threw); the file stays in place. -/
  | failed
deriving DecidableEq, Repr

/-- Processing of a single file inside `EventsWatcher.poll`: skip
non-`.json` names; fire-and-delete `immediate` events; fire-and-delete
`one-shot` events whose `triggerAt` has passed, keeping future ones in
place; ignore `periodic` events; catch per-file errors. -/
def processFile (now : Int) (f : EventFile) : FileOutcome :=
  if ¬ (strEndsWith f.name (".json") = true) then FileOutcome.skipped
  else
    match f.content with
    | FileContent.malformed => FileOutcome.failed
    | FileContent.event e =>
      match e.etype with
      | EType.immediate =>
        if f.callbackFails then FileOutcome.failed else FileOutcome.fired e
      | EType.oneShot =>
        match e.triggerAt with
        | none => FileOutcome.kept
        | some t =>
          if now ≥ t then
            (if f.callbackFails then FileOutcome.failed else FileOutcome.fired e)
          else FileOutcome.kept
      | EType.periodic => FileOutcome.kept

/-- One `EventsWatcher.poll` pass over the directory listing: each file
is processed independently, in order, with errors confined to their
file. -/
def poll (now : Int) (files : List EventFile) : List FileOutcome :=
  files.map (processFile now)

/-- Whether an outcome deletes the file from the directory. -/
def outcomeDeletes : FileOutcome → Bool
  | FileOutcome.fired _ => true
  | _ => false

/-- The directory contents after a poll: exactly the files whose
processing did not fire-and-delete them. -/
def remainingFiles (now : Int) (files : List EventFile) : List EventFile :=
  files.filter (fun f => ¬ outcomeDeletes (processFile now f) = true)

/-- C7: on each poll, an `immediate` event fires and its file is
deleted; a `one-shot` event with a future `triggerAt` is left in place
unchanged and not fired, and fires-and-deletes exactly on a poll at
which `triggerAt` has passed; a `periodic` event is never fired nor
deleted; and a failing file does not affect how the remaining files of
the same poll are processed. -/
theorem eventsWatcher_poll_spec :
    (∀ (now : Int) (f : EventFile) (e : SEvent),
      strEndsWith f.name (".json") = true → f.content = FileContent.event e →
      e.etype = EType.immediate → f.callbackFails = false →
      processFile now f = FileOutcome.fired e)
    ∧ (∀ (now : Int) (f : EventFile) (e : SEvent) (t : Int),
      strEndsWith f.name (".json") = true → f.content = FileContent.event e →
      e.etype = EType.oneShot → e.triggerAt = some t → now < t →
      processFile now f = FileOutcome.kept)
    ∧ (∀ (now : Int) (f : EventFile) (e : SEvent) (t : Int),
      strEndsWith f.name (".json") = true → f.content = FileContent.event e →
      e.etype = EType.oneShot → e.triggerAt = some t → t ≤ now →
      f.callbackFails = false →
      processFile now f = FileOutcome.fired e)
    ∧ (∀ (now : Int) (f : EventFile) (e : SEvent),
      strEndsWith f.name (".json") = true → f.content = FileContent.event e →
      e.etype = EType.periodic →
      processFile now f = FileOutcome.kept ∧ f ∈ remainingFiles now [f])
    ∧ (∀ (now : Int) (before after : List EventFile) (bad : EventFile),
      poll now (before ++ bad :: after)
        = poll now before ++ processFile now bad :: poll now after) := by
  refine ⟨?_, ?_, ?_, ?_, ?_⟩
  · intro now f e hjson hc he hcb
    unfold processFile
    rw [if_neg (by simp [hjson]), hc]
    simp [he, hcb]
  · intro now f e t hjson hc he ht hlt
    unfold processFile
    rw [if_neg (by simp [hjson]), hc]
    simp only [he, ht]
    rw [if_neg (by omega)]
  · intro now f e t hjson hc he ht hle hcb
    unfold processFile
    rw [if_neg (by simp [hjson]), hc]
    simp only [he, ht, hcb]
    rw [if_pos (by omega)]
    simp
  · intro now f e hjson hc he
    have hp : processFile now f = FileOutcome.kept := by
      unfold processFile
      rw [if_neg (by simp [hjson]), hc]
      simp [he]
    refine ⟨hp, ?_⟩
    unfold remainingFiles
    simp [hp, outcomeDeletes]
  · intro now before after bad
    unfold poll
    simp

/-- Witness for C7 on a concrete mixed directory. -/
theorem eventsWatcher_poll_spec_witness :
    (strEndsWith "a.json" (".json") = true
      ∧ (⟨"a.json", FileContent.event ⟨"e1", EType.immediate, "p", "slack:DM", none⟩,
          false⟩ : EventFile).content
        = FileContent.event ⟨"e1", EType.immediate, "p", "slack:DM", none⟩)
    ∧ processFile 100
        ⟨"a.json", FileContent.event ⟨"e1", EType.immediate, "p", "slack:DM", none⟩, false⟩
      = FileOutcome.fired ⟨"e1", EType.immediate, "p", "slack:DM", none⟩
    ∧ processFile 100
        ⟨"b.json", FileContent.event ⟨"e2", EType.oneShot, "p", "slack:DM", some 200⟩, false⟩
      = FileOutcome.kept
    ∧ processFile 300
        ⟨"b.json", FileContent.event ⟨"e2", EType.oneShot, "p", "slack:DM", some 200⟩, false⟩
      = FileOutcome.fired ⟨"e2", EType.oneShot, "p", "slack:DM", some 200⟩
    ∧ processFile 100
        ⟨"c.json", FileContent.event ⟨"e3", EType.periodic, "p", "slack:DM", none⟩, false⟩
      = FileOutcome.kept :=
  ⟨⟨by decide, rfl⟩,
    eventsWatcher_poll_spec.1 100
      ⟨"a.json", FileContent.event ⟨"e1", EType.immediate, "p", "slack:DM", none⟩, false⟩
      ⟨"e1", EType.immediate, "p", "slack:DM", none⟩ (by decide) rfl rfl rfl,
    (eventsWatcher_poll_spec.2.1 100
      ⟨"b.json", FileContent.event ⟨"e2", EType.oneShot, "p", "slack:DM", some 200⟩, false⟩
      ⟨"e2", EType.oneShot, "p", "slack:DM", some 200⟩ 200 (by decide) rfl rfl rfl
      (by decide)),
    (eventsWatcher_poll_spec.2.2.1 300
      ⟨"b.json", FileContent.event ⟨"e2", EType.oneShot, "p", "slack:DM", some 200⟩, false⟩
      ⟨"e2", EType.oneShot, "p", "slack:DM", some 200⟩ 200 (by decide) rfl rfl rfl
      (by decide) rfl),
    ((eventsWatcher_poll_spec.2.2.2.1 100
      ⟨"c.json", FileContent.event ⟨"e3", EType.periodic, "p", "slack:DM", none⟩, false⟩
      ⟨"e3", EType.periodic, "p", "slack:DM", none⟩ (by decide) rfl rfl).1)⟩

/-! ## Orchestration hub (`agent-hub.ts`) -/

/-- An event of the reasoning engine's stream observed while a turn is
drained (`AgentEvent` in `runAgent`'s subscription). -/
inductive AgentEv where
  | textDelta (s : String)
  | messageEnd (m : StoredMessage)
  | toolStart (toolName : String) (args : String)
  | toolEnd (toolName : String) (isError : Bool)
deriving DecidableEq, Repr

/-- An audit (history) entry relevant to the hub (`HistoryEntry.event`
kinds plus the payloads the claims mention). -/
inductive HEntry where
  | msgIn (text : String)
  | message (m : StoredMessage)
  | toolStartE (toolName : String)
  | toolEndE (toolName : String) (isError : Bool)
  | msgOut (text : String)
  | proactiveTrigger (prompt : String)
  | proactiveSilent
  | errorE (msg : String)
deriving DecidableEq, Repr

/-- A side effect of the hub, reified in program order: an audit-log
write, a `sendThreadReply` call, a context-log append, or the
fire-and-forget compaction kick. -/
inductive Effect where
  | audit (h : HEntry)
  | send (text : String)
  | appendContextMsgs (msgs : List StoredMessage)
  | compactKick
deriving DecidableEq, Repr

/-- Accumulated `responseText`: the concatenation of all text deltas of
the stream. -/
def responseTextOf : List AgentEv → String
  | [] => ""
  | AgentEv.textDelta s :: rest => s ++ responseTextOf rest
  | _ :: rest => responseTextOf rest

/-- Audit entries mirrored while draining the stream: one `message`
entry per finalized message and one `tool_start`/`tool_end` entry per
tool invocation boundary. -/
def streamEffects (evs : List AgentEv) : List Effect :=
  evs.filterMap fun ev =>
    match ev with
    | AgentEv.textDelta _ => none
    | AgentEv.messageEnd m => some (Effect.audit (HEntry.message m))
    | AgentEv.toolStart n _ => some (Effect.audit (HEntry.toolStartE n))
    | AgentEv.toolEnd n b => some (Effect.audit (HEntry.toolEndE n b))

/-- The `newMessages` collected from `message_end` events, persisted to
the session context after the drain. -/
def finalizedMessages (evs : List AgentEv) : List StoredMessage :=
  evs.filterMap fun ev =>
    match ev with
    | AgentEv.messageEnd m => some m
    | _ => none

/-- The proactive-silence sentinel. -/
def silentSentinel : String := "[SILENT]"

/-- Effects of `AgentHub.runAgent` for one turn whose drained stream is
`evs`: the stream-mirrored audit entries, the context append, the
background compaction kick, then — on the trimmed response — either the
`proactive_silent` audit entry (proactive turn answering exactly the
sentinel), or a `sendThreadReply` of the trimmed text plus a `msg_out`
entry when the trimmed text is non-empty. -/
def runAgentEffects (isProactive : Bool) (evs : List AgentEv) : List Effect :=
  let trimmedResponse := jsTrim (responseTextOf evs)
  streamEffects evs
    ++ [Effect.appendContextMsgs (finalizedMessages evs), Effect.compactKick]
    ++ (if isProactive && (trimmedResponse = silentSentinel : Bool) then
          [Effect.audit HEntry.proactiveSilent]
        else if trimmedResponse = "" then []
        else [Effect.send trimmedResponse, Effect.audit (HEntry.msgOut trimmedResponse)])

/-- Effects of the task `AgentHub.handleProactivePrompt` enqueues:
record `proactive_trigger`, then run a turn with `isProactive = true`. -/
def handleProactivePromptEffects (prompt : String) (evs : List AgentEv) : List Effect :=
  Effect.audit (HEntry.proactiveTrigger prompt) :: runAgentEffects true evs

/-- The fixed apology text of `handleMessage`'s error path. -/
def apologyText : String := "Sorry, I encountered an error processing your message."

/-- Effects of the task `AgentHub.handleMessage` enqueues, as a
function of how the inner `processMessage` call went (`Except.error`
carries the thrown error's message) and of whether the best-effort
apology send itself throws.  The returned value is the task's own
result: `Except.error` would mean the task rejects its queue slot. -/
def handleMessageTask (turn : Except String (List Effect)) (apologySendFails : Bool) :
    Except String (List Effect) :=
  match turn with
  | Except.ok fx => Except.ok fx
  | Except.error err =>
    let fx := [Effect.audit (HEntry.errorE err)]
    if apologySendFails then Except.ok fx
    else Except.ok (fx ++ [Effect.send apologyText])

/-! ## Theorems: hub behaviour (C8, C9, C10) -/

/-- Projection of an effect trace onto the audit entries the proactive
scenario mentions (`proactive_trigger`, `proactive_silent`, `msg_out`). -/
def proactiveTrace (fx : List Effect) : List HEntry :=
  fx.filterMap fun e =>
    match e with
    | Effect.audit (HEntry.proactiveTrigger p) => some (HEntry.proactiveTrigger p)
    | Effect.audit HEntry.proactiveSilent => some HEntry.proactiveSilent
    | Effect.audit (HEntry.msgOut t) => some (HEntry.msgOut t)
    | _ => none

lemma streamEffects_no_send (evs : List AgentEv) (t : String) :
    Effect.send t ∉ streamEffects evs := by
  intro hmem
  unfold streamEffects at hmem
  rw [List.mem_filterMap] at hmem
  obtain ⟨ev, _, hev⟩ := hmem
  cases ev <;> simp at hev

lemma streamEffects_proactiveTrace (evs : List AgentEv) :
    proactiveTrace (streamEffects evs) = [] := by
  induction evs with
  | nil => rfl
  | cons ev rest ih =>
    cases ev <;> simpa [streamEffects, proactiveTrace, List.filterMap_cons] using ih

lemma proactiveTrace_append (a b : List Effect) :
    proactiveTrace (a ++ b) = proactiveTrace a ++ proactiveTrace b := by
  unfold proactiveTrace
  rw [List.filterMap_append]

/-- C8: `handleProactivePrompt` records `proactive_trigger` and then
runs a proactive turn; when the full response text is exactly the
sentinel `[SILENT]`, a `proactive_silent` entry is recorded, no
`sendThreadReply` call happens, no `msg_out` entry is written, and the
audit trace of the scenario is `proactive_trigger` followed by
`proactive_silent`. -/
theorem handleProactivePrompt_silent (prompt : String) (evs : List AgentEv)
    (hresp : responseTextOf evs = silentSentinel) :
    handleProactivePromptEffects prompt evs
        = Effect.audit (HEntry.proactiveTrigger prompt) :: runAgentEffects true evs
    ∧ (∀ t, Effect.send t ∉ handleProactivePromptEffects prompt evs)
    ∧ (∀ t, Effect.audit (HEntry.msgOut t) ∉ handleProactivePromptEffects prompt evs)
    ∧ proactiveTrace (handleProactivePromptEffects prompt evs)
        = [HEntry.proactiveTrigger prompt, HEntry.proactiveSilent] := by
  have htrim : jsTrim (responseTextOf evs) = silentSentinel := by
    rw [hresp]
    decide
  have hrun : runAgentEffects true evs
      = streamEffects evs
        ++ [Effect.appendContextMsgs (finalizedMessages evs), Effect.compactKick]
        ++ [Effect.audit HEntry.proactiveSilent] := by
    unfold runAgentEffects
    simp only [htrim]
    rw [if_pos (by simp)]
  refine ⟨rfl, ?_, ?_, ?_⟩
  · intro t hmem
    unfold handleProactivePromptEffects at hmem
    rw [hrun] at hmem
    simp only [List.mem_cons, List.mem_append, List.mem_singleton] at hmem
    rcases hmem with h | h
    · exact Effect.noConfusion h
    rcases h with (h | h) | h
    · exact streamEffects_no_send evs t h
    · simp at h
    · simp at h
  · intro t hmem
    unfold handleProactivePromptEffects at hmem
    rw [hrun] at hmem
    simp only [List.mem_cons, List.mem_append, List.mem_singleton] at hmem
    rcases hmem with h | h
    · simp at h
    rcases h with (h | h) | h
    · have := streamEffects_proactiveTrace evs
      unfold proactiveTrace at this
      rw [List.filterMap_eq_nil_iff] at this
      have h2 := this _ h
      simp at h2
    · simp at h
    · simp at h
  · unfold handleProactivePromptEffects
    rw [hrun]
    simp only [proactiveTrace, List.filterMap_cons, List.filterMap_append]
    have h1 := streamEffects_proactiveTrace evs
    unfold proactiveTrace at h1
    rw [h1]
    rfl

/-- Witness for C8 on a one-delta stream answering the sentinel. -/
theorem handleProactivePrompt_silent_witness :
    responseTextOf [AgentEv.textDelta silentSentinel] = silentSentinel
    ∧ proactiveTrace
        (handleProactivePromptEffects ("check in") [AgentEv.textDelta silentSentinel])
      = [HEntry.proactiveTrigger ("check in"), HEntry.proactiveSilent] :=
  ⟨by decide,
    (handleProactivePrompt_silent ("check in") [AgentEv.textDelta silentSentinel]
      (by decide)).2.2.2⟩

/-- C9: when processing an inbound message throws, the queued task of
`handleMessage` writes an `error` audit entry, sends at most one fixed
generic apology that does not depend on the error (so no internal error
text reaches the channel), and returns successfully even when the
apology send itself throws — the failure never propagates out of the
queued task. -/
theorem handleMessage_error_path (err : String) :
    handleMessageTask (Except.error err) false
        = Except.ok [Effect.audit (HEntry.errorE err), Effect.send apologyText]
    ∧ handleMessageTask (Except.error err) true
        = Except.ok [Effect.audit (HEntry.errorE err)]
    ∧ (∀ (b : Bool) (fx : List Effect) (t : String),
        handleMessageTask (Except.error err) b = Except.ok fx →
        Effect.send t ∈ fx → t = apologyText)
    ∧ (∀ b, ∃ fx, handleMessageTask (Except.error err) b = Except.ok fx) := by
  refine ⟨rfl, rfl, ?_, ?_⟩
  · intro b fx t hok hmem
    cases b with
    | false =>
      rw [show handleMessageTask (Except.error err) false
          = Except.ok [Effect.audit (HEntry.errorE err), Effect.send apologyText]
          from rfl] at hok
      cases hok
      simp at hmem
      exact hmem
    | true =>
      rw [show handleMessageTask (Except.error err) true
          = Except.ok [Effect.audit (HEntry.errorE err)] from rfl] at hok
      cases hok
      simp at hmem
  · intro b
    cases b with
    | false => exact ⟨_, rfl⟩
    | true => exact ⟨_, rfl⟩

/-- Witness for C9 at a concrete error message. -/
theorem handleMessage_error_path_witness :
    handleMessageTask (Except.error ("boom")) false
      = Except.ok [Effect.audit (HEntry.errorE ("boom")), Effect.send apologyText] :=
  (handleMessage_error_path ("boom")).1

/-- C10: the `[SILENT]` suppression applies only to proactive turns —
on a non-proactive turn whose response trims to the sentinel, the
trimmed text is sent via `sendThreadReply` and recorded as `msg_out`
like any other non-empty reply — and the comparison uses the trimmed
response, so a proactive response that is the sentinel surrounded by
whitespace is also suppressed. -/
theorem runAgent_silent_only_proactive (evs : List AgentEv)
    (htrim : jsTrim (responseTextOf evs) = silentSentinel) :
    runAgentEffects false evs
        = streamEffects evs
          ++ [Effect.appendContextMsgs (finalizedMessages evs), Effect.compactKick]
          ++ [Effect.send silentSentinel, Effect.audit (HEntry.msgOut silentSentinel)]
    ∧ (∀ t, Effect.send t ∉ runAgentEffects true evs)
    ∧ Effect.audit HEntry.proactiveSilent ∈ runAgentEffects true evs := by
  have hrunT : runAgentEffects true evs
      = streamEffects evs
        ++ [Effect.appendContextMsgs (finalizedMessages evs), Effect.compactKick]
        ++ [Effect.audit HEntry.proactiveSilent] := by
    unfold runAgentEffects
    simp only [htrim]
    rw [if_pos (by simp)]
  refine ⟨?_, ?_, ?_⟩
  · unfold runAgentEffects
    simp only [htrim, Bool.false_and]
    rw [if_neg (by decide : ¬ ((false : Bool) = true))]
    rw [if_neg (by decide : ¬ (silentSentinel = ""))]
  · intro t hmem
    rw [hrunT] at hmem
    simp only [List.mem_append, List.mem_singleton] at hmem
    rcases hmem with (h | h) | h
    · exact streamEffects_no_send evs t h
    · simp at h
    · exact Effect.noConfusion h
  · rw [hrunT]
    simp

/-- Witness for C10 on a whitespace-wrapped sentinel response. -/
theorem runAgent_silent_only_proactive_witness :
    jsTrim (responseTextOf [AgentEv.textDelta ("  [SILENT]"), AgentEv.textDelta (" ")])
        = silentSentinel
    ∧ Effect.audit HEntry.proactiveSilent
        ∈ runAgentEffects true [AgentEv.textDelta ("  [SILENT]"), AgentEv.textDelta (" ")] :=
  ⟨by decide,
    (runAgent_silent_only_proactive
      [AgentEv.textDelta ("  [SILENT]"), AgentEv.textDelta (" ")] (by decide)).2.2⟩

/-! ## Message queue (`message-queue.ts`)

`MessageQueue.enqueue(sessionId, work)` chains `work` behind the
session's stored tail promise with
`previous.then(work, err => work())`, stores the chained promise back
into the map, awaits it, and in a `finally` block deletes the map entry
if it is still the tail.  We model the resulting promise graph as a
transition system: each `enqueue` call is an external step that
atomically (the method body has no suspension point between the map
read and the map write) registers a new task chained behind the current
tail; the scheduler then nondeterministically starts a task once its
predecessor promise has settled (with either outcome — both `then`
branches run `work`), settles a running task with either outcome, and
runs the `finally` cleanup of an enqueue once its promise has settled.
Promise id `0` is the already-resolved `Promise.resolve()` root; the
promise allocated by an enqueue settles exactly when its task does. -/

/-- How a queued task settles: normal return or thrown error. -/
inductive Outcome where
  | ok
  | err
deriving DecidableEq, Repr

/-- Execution status of one queued task. -/
inductive TStat where
  | notStarted
  | running
  | done (o : Outcome)
deriving DecidableEq, Repr

/-- The record of one `enqueue(sessionId, work)` call: `prev` is the
promise id the task was chained behind (`0` = the resolved root),
`next` the promise id allocated for the chained task and stored into
the map, `tstat` the task's status, `cleaned` whether the call's
`finally` cleanup has run. -/
structure QEntry where
  sid : String
  prev : Nat
  next : Nat
  tstat : TStat
  cleaned : Bool
deriving DecidableEq, Repr

/-- State of the `MessageQueue` promise machine: `len` counts enqueue
calls so far, `ent i` is the record of the `i`-th call, `queues` is the
`Map<string, Promise>` from session id to tail-promise id, `fresh` the
next unallocated promise id. -/
structure QState where
  len : Nat
  ent : Nat → Option QEntry
  queues : String → Option Nat
  fresh : Nat

/-- Outcome a task's promise has settled with: `none` while the task
has not finished. -/
def settledOutcome : TStat → Option Outcome
  | TStat.done o => some o
  | _ => none

/-- Settlement status of a promise: `none` while pending, the task's
outcome once settled.  Promise `0` is always fulfilled; the promise of
an enqueue adopts its task's outcome. -/
def pSettled (st : QState) (p : Nat) : Option Outcome :=
  if p = 0 then some Outcome.ok
  else (st.ent (p - 1)).bind fun e => settledOutcome e.tstat

/-- Replace the record of enqueue call `i`. -/
def setEnt (st : QState) (i : Nat) (e : QEntry) : QState :=
  { st with ent := fun j => if j = i then some e else st.ent j }

/-- The synchronous body of `enqueue(sid, work)`: read the session's
tail promise (`Promise.resolve()` when absent), chain the task behind
it, store the chained promise as the new tail. -/
def enqueueStep (st : QState) (sid : String) : QState :=
  { len := st.len + 1,
    ent := fun j =>
      if j = st.len then
        some ⟨sid, (st.queues sid).getD 0, st.fresh, TStat.notStarted, false⟩
      else st.ent j,
    queues := fun s => if s = sid then some st.fresh else st.queues s,
    fresh := st.fresh + 1 }

/-- Internal (scheduler-driven) transitions of the queue machine. -/
inductive QInternal : QState → QState → Prop where
  /-- A chained task starts once its predecessor promise has settled,
  with either outcome: `previous.then(work, err => work())` runs the
  task on the fulfilment path and on the rejection path alike. -/
  | start (st : QState) (i : Nat) (e : QEntry) (o : Outcome) :
      st.ent i = some e →
      e.tstat = TStat.notStarted →
      pSettled st e.prev = some o →
      QInternal st (setEnt st i { e with tstat := TStat.running })
  /-- A running task settles with some outcome, settling its promise. -/
  | settle (st : QState) (i : Nat) (e : QEntry) (o : Outcome) :
      st.ent i = some e →
      e.tstat = TStat.running →
      QInternal st (setEnt st i { e with tstat := TStat.done o })
  /-- The `finally` cleanup of an enqueue call runs after its promise
  settles, and deletes the map entry only while it is still the tail. -/
  | cleanup (st : QState) (i : Nat) (e : QEntry) (o : Outcome) :
      st.ent i = some e →
      e.cleaned = false →
      pSettled st e.next = some o →
      QInternal st
        { setEnt st i { e with cleaned := true } with
          queues :=
            if st.queues e.sid = some e.next then
              fun s => if s = e.sid then none else st.queues s
            else st.queues }

/-- One step: an external `enqueue` call or an internal transition. -/
inductive QStep : QState → QState → Prop where
  | enq (st : QState) (sid : String) : QStep st (enqueueStep st sid)
  | int {st st' : QState} (h : QInternal st st') : QStep st st'

/-- The queue as constructed: no entries, empty map. -/
def initQ : QState := ⟨0, fun _ => none, fun _ => none, 1⟩

/-- States reachable from the empty queue. -/
inductive Reach : QState → Prop where
  | init : Reach initQ
  | step {st st' : QState} : Reach st → QStep st st' → Reach st'

/-! ## Queue machine invariants -/

/-- Inductive invariant of the queue machine.  It ties every enqueue
record to its chain predecessor and the map to the tail of each
session's chain. -/
structure QInv (st : QState) : Prop where
  dom : ∀ i, (st.ent i).isSome ↔ i < st.len
  fresh_eq : st.fresh = st.len + 1
  next_eq : ∀ i e, st.ent i = some e → e.next = i + 1
  prev_cases : ∀ i e, st.ent i = some e →
    e.prev = 0 ∨ ∃ j e', j < i ∧ st.ent j = some e' ∧ e'.sid = e.sid ∧ e.prev = j + 1 ∧
      (∀ k e'', j < k → k < i → st.ent k = some e'' → e''.sid ≠ e.sid)
  prev_zero : ∀ i e, st.ent i = some e → e.prev = 0 →
    ∀ j e', j < i → st.ent j = some e' → e'.sid = e.sid → ∃ o, e'.tstat = TStat.done o
  started_prev : ∀ i e, st.ent i = some e → e.tstat ≠ TStat.notStarted →
    ∃ o, pSettled st e.prev = some o
  cleaned_done : ∀ i e, st.ent i = some e → e.cleaned = true → ∃ o, e.tstat = TStat.done o
  queues_tail : ∀ sid p, st.queues sid = some p →
    ∃ i e, st.ent i = some e ∧ e.sid = sid ∧ p = e.next ∧ e.cleaned = false ∧
      (∀ k e'', i < k → st.ent k = some e'' → e''.sid ≠ sid)
  queues_none : ∀ sid, st.queues sid = none →
    ∀ i e, st.ent i = some e → e.sid = sid → ∃ o, e.tstat = TStat.done o
  ord : ∀ i j ei ej, i < j → st.ent i = some ei → st.ent j = some ej →
    ei.sid = ej.sid → ej.tstat ≠ TStat.notStarted → ∃ o, ei.tstat = TStat.done o

lemma qinv_init : QInv initQ := by
  refine ⟨?_, rfl, ?_, ?_, ?_, ?_, ?_, ?_, ?_, ?_⟩ <;>
    · intro i
      simp [initQ]

/-! ### Small projection and frame lemmas -/

lemma setEnt_ent (st : QState) (i : Nat) (e : QEntry) (j : Nat) :
    (setEnt st i e).ent j = if j = i then some e else st.ent j := rfl

lemma setEnt_len (st : QState) (i : Nat) (e : QEntry) : (setEnt st i e).len = st.len := rfl

lemma setEnt_queues (st : QState) (i : Nat) (e : QEntry) :
    (setEnt st i e).queues = st.queues := rfl

lemma setEnt_fresh (st : QState) (i : Nat) (e : QEntry) :
    (setEnt st i e).fresh = st.fresh := rfl

lemma enqueueStep_ent (st : QState) (sid : String) (j : Nat) :
    (enqueueStep st sid).ent j
      = if j = st.len then
          some ⟨sid, (st.queues sid).getD 0, st.fresh, TStat.notStarted, false⟩
        else st.ent j := rfl

lemma enqueueStep_len (st : QState) (sid : String) :
    (enqueueStep st sid).len = st.len + 1 := rfl

lemma enqueueStep_queues (st : QState) (sid : String) (s : String) :
    (enqueueStep st sid).queues s = if s = sid then some st.fresh else st.queues s := rfl

lemma enqueueStep_fresh (st : QState) (sid : String) :
    (enqueueStep st sid).fresh = st.fresh + 1 := rfl

lemma dom_lt {st : QState} (hinv : QInv st) {i : Nat} {e : QEntry}
    (h : st.ent i = some e) : i < st.len := by
  refine (hinv.dom i).mp ?_
  rw [h]
  rfl

/-- Extract the settled entry behind a positive settled promise id. -/
lemma pSettled_pos {st : QState} {p : Nat} {o : Outcome} (hp : p ≠ 0)
    (h : pSettled st p = some o) :
    ∃ e, st.ent (p - 1) = some e ∧ e.tstat = TStat.done o := by
  unfold pSettled at h
  rw [if_neg hp] at h
  cases hent : st.ent (p - 1) with
  | none => rw [hent] at h; exact Option.noConfusion h
  | some e =>
    rw [hent] at h
    simp only [Option.some_bind] at h
    cases hts : e.tstat with
    | notStarted => rw [hts] at h; exact Option.noConfusion h
    | running => rw [hts] at h; exact Option.noConfusion h
    | done o' =>
      rw [hts, settledOutcome] at h
      injection h with h
      subst h
      exact ⟨e, rfl, hts⟩

lemma pSettled_zero (st : QState) : pSettled st 0 = some Outcome.ok := rfl

/-- Settled promises stay settled with the same outcome across steps. -/
lemma pSettled_mono {st st' : QState} (hstep : QStep st st') (hinv : QInv st)
    {p : Nat} {o : Outcome} (h : pSettled st p = some o) : pSettled st' p = some o := by
  by_cases hp : p = 0
  · subst hp
    rw [pSettled_zero] at h ⊢
    exact h
  · obtain ⟨e, hent, hts⟩ := pSettled_pos hp h
    unfold pSettled
    rw [if_neg hp]
    cases hstep with
    | enq sid =>
      rw [enqueueStep_ent, if_neg (by have := dom_lt hinv hent; omega), hent]
      simp [settledOutcome, hts]
    | int hint =>
      cases hint with
      | start i e0 o0 h1 h2 h3 =>
        rw [setEnt_ent]
        by_cases hpi : p - 1 = i
        · exfalso
          rw [hpi, h1] at hent
          injection hent with hent
          rw [← hent, h2] at hts
          exact TStat.noConfusion hts
        · rw [if_neg hpi, hent]
          simp [settledOutcome, hts]
      | settle i e0 o0 h1 h2 =>
        rw [setEnt_ent]
        by_cases hpi : p - 1 = i
        · exfalso
          rw [hpi, h1] at hent
          injection hent with hent
          rw [← hent, h2] at hts
          exact TStat.noConfusion hts
        · rw [if_neg hpi, hent]
          simp [settledOutcome, hts]
      | cleanup i e0 o0 h1 h2 h3 =>
        show ((setEnt st i { e0 with cleaned := true }).ent (p - 1)).bind _ = some o
        rw [setEnt_ent]
        by_cases hpi : p - 1 = i
        · rw [if_pos hpi]
          rw [hpi, h1] at hent
          injection hent with hent
          subst hent
          simp only [Option.some_bind]
          rw [show ({ e0 with cleaned := true } : QEntry).tstat = e0.tstat from rfl, hts]
          rfl
        · rw [if_neg hpi, hent]
          simp [settledOutcome, hts]

/-! ### Invariant preservation -/

lemma qinv_enqueue (st : QState) (sid : String) (hinv : QInv st) :
    QInv (enqueueStep st sid) := by
  refine ⟨?_, ?_, ?_, ?_, ?_, ?_, ?_, ?_, ?_, ?_⟩
  · -- dom
    intro i
    rw [enqueueStep_ent]
    show _ ↔ i < st.len + 1
    by_cases hi : i = st.len
    · rw [if_pos hi]
      constructor
      · intro _
        omega
      · intro _
        rfl
    · rw [if_neg hi]
      rw [hinv.dom i]
      omega
  · -- fresh_eq
    show st.fresh + 1 = st.len + 1 + 1
    rw [hinv.fresh_eq]
  · -- next_eq
    intro i e he
    rw [enqueueStep_ent] at he
    by_cases hi : i = st.len
    · rw [if_pos hi] at he
      injection he with he
      subst he
      show st.fresh = i + 1
      rw [hinv.fresh_eq, hi]
    · rw [if_neg hi] at he
      exact hinv.next_eq i e he
  · -- prev_cases
    intro i e he
    rw [enqueueStep_ent] at he
    by_cases hi : i = st.len
    · rw [if_pos hi] at he
      injection he with he
      subst he
      subst hi
      cases hq : st.queues sid with
      | none =>
        left
        rfl
      | some p =>
        obtain ⟨j, e', hent, hsid, hp, _, htail⟩ := hinv.queues_tail sid p hq
        have hjN := dom_lt hinv hent
        right
        refine ⟨j, e', hjN, ?_, hsid, ?_, ?_⟩
        · rw [enqueueStep_ent, if_neg (by omega : ¬ j = st.len)]
          exact hent
        · show p = j + 1
          rw [hp, hinv.next_eq j e' hent]
        · intro k e'' hjk hki hk
          rw [enqueueStep_ent, if_neg (by omega : ¬ k = st.len)] at hk
          exact htail k e'' hjk hk
    · rw [if_neg hi] at he
      have hiN := dom_lt hinv he
      rcases hinv.prev_cases i e he with h0 | ⟨j, e', hj, hent, hsid, hp, hbet⟩
      · left
        exact h0
      · right
        refine ⟨j, e', hj, ?_, hsid, hp, ?_⟩
        · rw [enqueueStep_ent, if_neg (by have := dom_lt hinv hent; omega)]
          exact hent
        · intro k e'' hjk hki hk
          rw [enqueueStep_ent, if_neg (by omega : ¬ k = st.len)] at hk
          exact hbet k e'' hjk hki hk
  · -- prev_zero
    intro i e he h0
    rw [enqueueStep_ent] at he
    by_cases hi : i = st.len
    · rw [if_pos hi] at he
      injection he with he
      subst he
      subst hi
      have hqnone : st.queues sid = none := by
        cases hq : st.queues sid with
        | none => rfl
        | some p =>
          exfalso
          obtain ⟨j0, e0, hent0, _, hp0, _, _⟩ := hinv.queues_tail sid p hq
          have hpj : p = j0 + 1 := by
            rw [hp0, hinv.next_eq j0 e0 hent0]
          have h0' : (st.queues sid).getD 0 = 0 := h0
          rw [hq] at h0'
          simp at h0'
          omega
      intro j e' hj hje hsid2
      rw [enqueueStep_ent, if_neg (by omega : ¬ j = st.len)] at hje
      exact hinv.queues_none sid hqnone j e' hje hsid2
    · rw [if_neg hi] at he
      have hiN := dom_lt hinv he
      intro j e' hj hje hsid2
      rw [enqueueStep_ent, if_neg (by omega : ¬ j = st.len)] at hje
      exact hinv.prev_zero i e he h0 j e' hj hje hsid2
  · -- started_prev
    intro i e he hns
    rw [enqueueStep_ent] at he
    by_cases hi : i = st.len
    · rw [if_pos hi] at he
      injection he with he
      subst he
      exact absurd rfl hns
    · rw [if_neg hi] at he
      obtain ⟨o, ho⟩ := hinv.started_prev i e he hns
      exact ⟨o, pSettled_mono (QStep.enq st sid) hinv ho⟩
  · -- cleaned_done
    intro i e he hcl
    rw [enqueueStep_ent] at he
    by_cases hi : i = st.len
    · rw [if_pos hi] at he
      injection he with he
      subst he
      exact Bool.noConfusion hcl
    · rw [if_neg hi] at he
      exact hinv.cleaned_done i e he hcl
  · -- queues_tail
    intro s p hq
    have hq' : (if s = sid then some st.fresh else st.queues s) = some p := hq
    by_cases hs : s = sid
    · rw [if_pos hs] at hq'
      injection hq' with hq'
      subst hs
      refine ⟨st.len, ⟨s, (st.queues s).getD 0, st.fresh, TStat.notStarted, false⟩,
        ?_, rfl, hq'.symm, rfl, ?_⟩
      · rw [enqueueStep_ent, if_pos rfl]
      · intro k e'' hk hke
        rw [enqueueStep_ent, if_neg (by omega : ¬ k = st.len)] at hke
        have := dom_lt hinv hke
        exact absurd this (by omega)
    · rw [if_neg hs] at hq'
      obtain ⟨i, e, hent, hsid, hp, hcl, htail⟩ := hinv.queues_tail s p hq'
      refine ⟨i, e, ?_, hsid, hp, hcl, ?_⟩
      · rw [enqueueStep_ent, if_neg (by have := dom_lt hinv hent; omega)]
        exact hent
      · intro k e'' hik hke
        rw [enqueueStep_ent] at hke
        by_cases hk : k = st.len
        · rw [if_pos hk] at hke
          injection hke with hke
          subst hke
          exact fun hcon => hs hcon.symm
        · rw [if_neg hk] at hke
          exact htail k e'' hik hke
  · -- queues_none
    intro s hqn i e he hsid
    have hq' : (if s = sid then some st.fresh else st.queues s) = none := hqn
    by_cases hs : s = sid
    · rw [if_pos hs] at hq'
      exact Option.noConfusion hq'
    · rw [if_neg hs] at hq'
      rw [enqueueStep_ent] at he
      by_cases hi : i = st.len
      · rw [if_pos hi] at he
        injection he with he
        subst he
        exact absurd hsid.symm hs
      · rw [if_neg hi] at he
        exact hinv.queues_none s hq' i e he hsid
  · -- ord
    intro i j ei ej hij hei hej hsid hns
    rw [enqueueStep_ent] at hei hej
    by_cases hj : j = st.len
    · rw [if_pos hj] at hej
      injection hej with hej
      subst hej
      exact absurd rfl hns
    · rw [if_neg hj] at hej
      have hjN := dom_lt hinv hej
      rw [if_neg (by omega : ¬ i = st.len)] at hei
      exact hinv.ord i j ei ej hij hei hej hsid hns

/-- Updating an entry without changing its settlement outcome leaves
every promise's settlement status unchanged. -/
lemma pSettled_setEnt_same {st : QState} {i0 : Nat} {e0 : QEntry} (e0' : QEntry)
    (h1 : st.ent i0 = some e0)
    (hsame : settledOutcome e0'.tstat = settledOutcome e0.tstat) (p : Nat) :
    pSettled (setEnt st i0 e0') p = pSettled st p := by
  unfold pSettled
  by_cases hp : p = 0
  · rw [if_pos hp, if_pos hp]
  · rw [if_neg hp, if_neg hp, setEnt_ent]
    by_cases hpi : p - 1 = i0
    · rw [if_pos hpi, hpi, h1]
      simp only [Option.some_bind]
      exact hsame
    · rw [if_neg hpi]

lemma qinv_start (st : QState) (i0 : Nat) (e0 : QEntry) (o0 : Outcome) (hinv : QInv st)
    (h1 : st.ent i0 = some e0) (h2 : e0.tstat = TStat.notStarted)
    (h3 : pSettled st e0.prev = some o0) :
    QInv (setEnt st i0 { e0 with tstat := TStat.running }) := by
  have hps := pSettled_setEnt_same { e0 with tstat := TStat.running } h1
    (by rw [h2]; rfl)
  refine ⟨?_, ?_, ?_, ?_, ?_, ?_, ?_, ?_, ?_, ?_⟩
  · -- dom
    intro i
    rw [setEnt_ent]
    show _ ↔ i < st.len
    by_cases hi : i = i0
    · rw [if_pos hi]
      subst hi
      constructor
      · intro _
        exact dom_lt hinv h1
      · intro _
        rfl
    · rw [if_neg hi]
      exact hinv.dom i
  · -- fresh_eq
    show st.fresh = st.len + 1
    exact hinv.fresh_eq
  · -- next_eq
    intro i e he
    rw [setEnt_ent] at he
    by_cases hi : i = i0
    · rw [if_pos hi] at he
      injection he with he
      subst he
      subst hi
      exact hinv.next_eq i e0 h1
    · rw [if_neg hi] at he
      exact hinv.next_eq i e he
  · -- prev_cases
    intro i e he
    rw [setEnt_ent] at he
    by_cases hi : i = i0
    · rw [if_pos hi] at he
      injection he with he
      subst he
      subst hi
      rcases hinv.prev_cases i e0 h1 with h0 | ⟨j, e', hj, hent, hsid, hp, hbet⟩
      · left
        exact h0
      · right
        refine ⟨j, e', hj, ?_, hsid, hp, ?_⟩
        · rw [setEnt_ent, if_neg (by omega : ¬ j = i)]
          exact hent
        · intro k e'' hjk hki hk
          rw [setEnt_ent, if_neg (by omega : ¬ k = i)] at hk
          exact hbet k e'' hjk hki hk
    · rw [if_neg hi] at he
      rcases hinv.prev_cases i e he with h0 | ⟨j, e', hj, hent, hsid, hp, hbet⟩
      · left
        exact h0
      · right
        by_cases hji : j = i0
        · refine ⟨j, { e0 with tstat := TStat.running }, hj, ?_, ?_, hp, ?_⟩
          · rw [setEnt_ent, if_pos hji]
          · subst hji
            rw [h1] at hent
            injection hent with hent
            show e0.sid = e.sid
            rw [hent]
            exact hsid
          · intro k e'' hjk hki hk
            rw [setEnt_ent, if_neg (by omega : ¬ k = i0)] at hk
            exact hbet k e'' hjk hki hk
        · refine ⟨j, e', hj, ?_, hsid, hp, ?_⟩
          · rw [setEnt_ent, if_neg hji]
            exact hent
          · intro k e'' hjk hki hk
            rw [setEnt_ent] at hk
            by_cases hki0 : k = i0
            · rw [if_pos hki0] at hk
              injection hk with hk
              subst hk
              subst hki0
              exact hbet k e0 hjk hki h1
            · rw [if_neg hki0] at hk
              exact hbet k e'' hjk hki hk
  · -- prev_zero
    intro i e he h0
    rw [setEnt_ent] at he
    by_cases hi : i = i0
    · rw [if_pos hi] at he
      injection he with he
      subst he
      subst hi
      intro j e' hj hje hsid
      rw [setEnt_ent, if_neg (by omega : ¬ j = i)] at hje
      exact hinv.prev_zero i e0 h1 h0 j e' hj hje hsid
    · rw [if_neg hi] at he
      intro j e' hj hje hsid
      rw [setEnt_ent] at hje
      by_cases hji : j = i0
      · rw [if_pos hji] at hje
        injection hje with hje
        subst hje
        subst hji
        exfalso
        obtain ⟨o, ho⟩ := hinv.prev_zero i e he h0 j e0 hj h1 hsid
        rw [h2] at ho
        exact TStat.noConfusion ho
      · rw [if_neg hji] at hje
        exact hinv.prev_zero i e he h0 j e' hj hje hsid
  · -- started_prev
    intro i e he hns
    rw [setEnt_ent] at he
    by_cases hi : i = i0
    · rw [if_pos hi] at he
      injection he with he
      subst he
      subst hi
      refine ⟨o0, ?_⟩
      rw [hps]
      exact h3
    · rw [if_neg hi] at he
      obtain ⟨o, ho⟩ := hinv.started_prev i e he hns
      exact ⟨o, by rw [hps]; exact ho⟩
  · -- cleaned_done
    intro i e he hcl
    rw [setEnt_ent] at he
    by_cases hi : i = i0
    · rw [if_pos hi] at he
      injection he with he
      subst he
      subst hi
      exfalso
      obtain ⟨o, ho⟩ := hinv.cleaned_done i e0 h1 hcl
      rw [h2] at ho
      exact TStat.noConfusion ho
    · rw [if_neg hi] at he
      exact hinv.cleaned_done i e he hcl
  · -- queues_tail
    intro s p hq
    obtain ⟨i, e, hent, hsid, hp, hcl, htail⟩ := hinv.queues_tail s p hq
    by_cases hi : i = i0
    · subst hi
      rw [h1] at hent
      injection hent with hent
      subst hent
      refine ⟨i, { e0 with tstat := TStat.running }, ?_, hsid, hp, hcl, ?_⟩
      · rw [setEnt_ent, if_pos rfl]
      · intro k e'' hik hke
        rw [setEnt_ent, if_neg (by omega : ¬ k = i)] at hke
        exact htail k e'' hik hke
    · refine ⟨i, e, ?_, hsid, hp, hcl, ?_⟩
      · rw [setEnt_ent, if_neg hi]
        exact hent
      · intro k e'' hik hke
        rw [setEnt_ent] at hke
        by_cases hki : k = i0
        · rw [if_pos hki] at hke
          injection hke with hke
          subst hke
          subst hki
          exact htail k e0 hik h1
        · rw [if_neg hki] at hke
          exact htail k e'' hik hke
  · -- queues_none
    intro s hqn i e he hsid
    rw [setEnt_ent] at he
    by_cases hi : i = i0
    · rw [if_pos hi] at he
      injection he with he
      subst he
      subst hi
      exfalso
      obtain ⟨o, ho⟩ := hinv.queues_none s hqn i e0 h1 hsid
      rw [h2] at ho
      exact TStat.noConfusion ho
    · rw [if_neg hi] at he
      exact hinv.queues_none s hqn i e he hsid
  · -- ord
    intro i j ei ej hij hei hej hsid hns
    rw [setEnt_ent] at hei hej
    by_cases hj : j = i0
    · rw [if_pos hj] at hej
      injection hej with hej
      subst hej
      subst hj
      rw [if_neg (by omega : ¬ i = j)] at hei
      rcases hinv.prev_cases j e0 h1 with h0 | ⟨j0, ew, hj0, hentw, hsidw, hpw, hbet⟩
      · exact hinv.prev_zero j e0 h1 h0 i ei hij hei hsid
      · have hprevne : e0.prev ≠ 0 := by
          rw [hpw]
          omega
        obtain ⟨e', hent', hts'⟩ := pSettled_pos hprevne h3
        have hent'' : st.ent j0 = some e' := by
          rw [hpw] at hent'
          simpa using hent'
        have hj0done : ew.tstat = TStat.done o0 := by
          rw [hentw] at hent''
          injection hent'' with hent''
          rw [hent'']
          exact hts'
        by_cases hii : i = j0
        · subst hii
          rw [hentw] at hei
          injection hei with hei
          rw [hei] at hj0done
          exact ⟨o0, hj0done⟩
        · by_cases hlt : i < j0
          · exact hinv.ord i j0 ei ew hlt hei hentw (hsid.trans hsidw.symm)
              (by rw [hj0done]; exact fun hcon => TStat.noConfusion hcon)
          · exfalso
            exact hbet i ei (by omega) hij hei hsid
    · rw [if_neg hj] at hej
      by_cases hi : i = i0
      · rw [if_pos hi] at hei
        injection hei with hei
        subst hei
        subst hi
        exfalso
        obtain ⟨o, ho⟩ := hinv.ord i j e0 ej hij h1 hej hsid hns
        rw [h2] at ho
        exact TStat.noConfusion ho
      · rw [if_neg hi] at hei
        exact hinv.ord i j ei ej hij hei hej hsid hns

lemma qinv_settle (st : QState) (i0 : Nat) (e0 : QEntry) (o0 : Outcome) (hinv : QInv st)
    (h1 : st.ent i0 = some e0) (h2 : e0.tstat = TStat.running) :
    QInv (setEnt st i0 { e0 with tstat := TStat.done o0 }) := by
  have hstep : QStep st (setEnt st i0 { e0 with tstat := TStat.done o0 }) :=
    QStep.int (QInternal.settle st i0 e0 o0 h1 h2)
  refine ⟨?_, ?_, ?_, ?_, ?_, ?_, ?_, ?_, ?_, ?_⟩
  · -- dom
    intro i
    rw [setEnt_ent]
    show _ ↔ i < st.len
    by_cases hi : i = i0
    · rw [if_pos hi]
      subst hi
      constructor
      · intro _
        exact dom_lt hinv h1
      · intro _
        rfl
    · rw [if_neg hi]
      exact hinv.dom i
  · -- fresh_eq
    show st.fresh = st.len + 1
    exact hinv.fresh_eq
  · -- next_eq
    intro i e he
    rw [setEnt_ent] at he
    by_cases hi : i = i0
    · rw [if_pos hi] at he
      injection he with he
      subst he
      subst hi
      exact hinv.next_eq i e0 h1
    · rw [if_neg hi] at he
      exact hinv.next_eq i e he
  · -- prev_cases
    intro i e he
    rw [setEnt_ent] at he
    by_cases hi : i = i0
    · rw [if_pos hi] at he
      injection he with he
      subst he
      subst hi
      rcases hinv.prev_cases i e0 h1 with h0 | ⟨j, e', hj, hent, hsid, hp, hbet⟩
      · left
        exact h0
      · right
        refine ⟨j, e', hj, ?_, hsid, hp, ?_⟩
        · rw [setEnt_ent, if_neg (by omega : ¬ j = i)]
          exact hent
        · intro k e'' hjk hki hk
          rw [setEnt_ent, if_neg (by omega : ¬ k = i)] at hk
          exact hbet k e'' hjk hki hk
    · rw [if_neg hi] at he
      rcases hinv.prev_cases i e he with h0 | ⟨j, e', hj, hent, hsid, hp, hbet⟩
      · left
        exact h0
      · right
        by_cases hji : j = i0
        · refine ⟨j, { e0 with tstat := TStat.done o0 }, hj, ?_, ?_, hp, ?_⟩
          · rw [setEnt_ent, if_pos hji]
          · subst hji
            rw [h1] at hent
            injection hent with hent
            show e0.sid = e.sid
            rw [hent]
            exact hsid
          · intro k e'' hjk hki hk
            rw [setEnt_ent] at hk
            by_cases hki0 : k = i0
            · rw [if_pos hki0] at hk
              injection hk with hk
              subst hk
              subst hki0
              exact absurd hji (by omega)
            · rw [if_neg hki0] at hk
              exact hbet k e'' hjk hki hk
        · refine ⟨j, e', hj, ?_, hsid, hp, ?_⟩
          · rw [setEnt_ent, if_neg hji]
            exact hent
          · intro k e'' hjk hki hk
            rw [setEnt_ent] at hk
            by_cases hki0 : k = i0
            · rw [if_pos hki0] at hk
              injection hk with hk
              subst hk
              subst hki0
              exact hbet k e0 hjk hki h1
            · rw [if_neg hki0] at hk
              exact hbet k e'' hjk hki hk
  · -- prev_zero
    intro i e he h0
    rw [setEnt_ent] at he
    by_cases hi : i = i0
    · rw [if_pos hi] at he
      injection he with he
      subst he
      subst hi
      intro j e' hj hje hsid
      rw [setEnt_ent, if_neg (by omega : ¬ j = i)] at hje
      exact hinv.prev_zero i e0 h1 h0 j e' hj hje hsid
    · rw [if_neg hi] at he
      intro j e' hj hje hsid
      rw [setEnt_ent] at hje
      by_cases hji : j = i0
      · rw [if_pos hji] at hje
        injection hje with hje
        subst hje
        exact ⟨o0, rfl⟩
      · rw [if_neg hji] at hje
        exact hinv.prev_zero i e he h0 j e' hj hje hsid
  · -- started_prev
    intro i e he hns
    rw [setEnt_ent] at he
    by_cases hi : i = i0
    · rw [if_pos hi] at he
      injection he with he
      subst he
      subst hi
      obtain ⟨o, ho⟩ := hinv.started_prev i e0 h1 (by
        rw [h2]
        exact fun hcon => TStat.noConfusion hcon)
      exact ⟨o, pSettled_mono hstep hinv ho⟩
    · rw [if_neg hi] at he
      obtain ⟨o, ho⟩ := hinv.started_prev i e he hns
      exact ⟨o, pSettled_mono hstep hinv ho⟩
  · -- cleaned_done
    intro i e he hcl
    rw [setEnt_ent] at he
    by_cases hi : i = i0
    · rw [if_pos hi] at he
      injection he with he
      subst he
      exact ⟨o0, rfl⟩
    · rw [if_neg hi] at he
      exact hinv.cleaned_done i e he hcl
  · -- queues_tail
    intro s p hq
    obtain ⟨i, e, hent, hsid, hp, hcl, htail⟩ := hinv.queues_tail s p hq
    by_cases hi : i = i0
    · subst hi
      rw [h1] at hent
      injection hent with hent
      subst hent
      refine ⟨i, { e0 with tstat := TStat.done o0 }, ?_, hsid, hp, hcl, ?_⟩
      · rw [setEnt_ent, if_pos rfl]
      · intro k e'' hik hke
        rw [setEnt_ent, if_neg (by omega : ¬ k = i)] at hke
        exact htail k e'' hik hke
    · refine ⟨i, e, ?_, hsid, hp, hcl, ?_⟩
      · rw [setEnt_ent, if_neg hi]
        exact hent
      · intro k e'' hik hke
        rw [setEnt_ent] at hke
        by_cases hki : k = i0
        · rw [if_pos hki] at hke
          injection hke with hke
          subst hke
          subst hki
          exact htail k e0 hik h1
        · rw [if_neg hki] at hke
          exact htail k e'' hik hke
  · -- queues_none
    intro s hqn i e he hsid
    rw [setEnt_ent] at he
    by_cases hi : i = i0
    · rw [if_pos hi] at he
      injection he with he
      subst he
      exact ⟨o0, rfl⟩
    · rw [if_neg hi] at he
      exact hinv.queues_none s hqn i e he hsid
  · -- ord
    intro i j ei ej hij hei hej hsid hns
    rw [setEnt_ent] at hei hej
    by_cases hj : j = i0
    · rw [if_pos hj] at hej
      injection hej with hej
      subst hej
      subst hj
      rw [if_neg (by omega : ¬ i = j)] at hei
      exact hinv.ord i j ei e0 hij hei h1 hsid (by
        rw [h2]
        exact fun hcon => TStat.noConfusion hcon)
    · rw [if_neg hj] at hej
      by_cases hi : i = i0
      · rw [if_pos hi] at hei
        injection hei with hei
        subst hei
        exact ⟨o0, rfl⟩
      · rw [if_neg hi] at hei
        exact hinv.ord i j ei ej hij hei hej hsid hns

lemma qinv_cleanup (st : QState) (i0 : Nat) (e0 : QEntry) (o0 : Outcome) (hinv : QInv st)
    (h1 : st.ent i0 = some e0) (h2 : e0.cleaned = false)
    (h3 : pSettled st e0.next = some o0) :
    QInv { setEnt st i0 { e0 with cleaned := true } with
      queues :=
        if st.queues e0.sid = some e0.next then
          fun s => if s = e0.sid then none else st.queues s
        else st.queues } := by
  have hnext : e0.next = i0 + 1 := hinv.next_eq i0 e0 h1
  have hdone : e0.tstat = TStat.done o0 := by
    obtain ⟨e', hent', hts'⟩ := pSettled_pos (by omega : e0.next ≠ 0) h3
    rw [hnext] at hent'
    simp only [Nat.add_sub_cancel] at hent'
    rw [h1] at hent'
    injection hent' with hent'
    rw [hent']
    exact hts'
  have hps : ∀ p,
      pSettled { setEnt st i0 { e0 with cleaned := true } with
        queues :=
          if st.queues e0.sid = some e0.next then
            fun s => if s = e0.sid then none else st.queues s
          else st.queues } p = pSettled st p :=
    fun p => pSettled_setEnt_same { e0 with cleaned := true } h1 rfl p
  have hqs : ∀ s, ({ setEnt st i0 { e0 with cleaned := true } with
      queues :=
        if st.queues e0.sid = some e0.next then
          fun s => if s = e0.sid then none else st.queues s
        else st.queues } : QState).queues s
      = (if st.queues e0.sid = some e0.next then
          fun s => if s = e0.sid then none else st.queues s
        else st.queues) s := fun _ => rfl
  refine ⟨?_, ?_, ?_, ?_, ?_, ?_, ?_, ?_, ?_, ?_⟩
  · -- dom
    intro i
    show (if i = i0 then some _ else st.ent i).isSome ↔ i < st.len
    by_cases hi : i = i0
    · rw [if_pos hi]
      subst hi
      constructor
      · intro _
        exact dom_lt hinv h1
      · intro _
        rfl
    · rw [if_neg hi]
      exact hinv.dom i
  · -- fresh_eq
    show st.fresh = st.len + 1
    exact hinv.fresh_eq
  · -- next_eq
    intro i e he
    rw [show ({ setEnt st i0 { e0 with cleaned := true } with
        queues := _ } : QState).ent = (setEnt st i0 { e0 with cleaned := true }).ent
        from rfl, setEnt_ent] at he
    by_cases hi : i = i0
    · rw [if_pos hi] at he
      injection he with he
      subst he
      subst hi
      exact hinv.next_eq i e0 h1
    · rw [if_neg hi] at he
      exact hinv.next_eq i e he
  · -- prev_cases
    intro i e he
    rw [show ({ setEnt st i0 { e0 with cleaned := true } with
        queues := _ } : QState).ent = (setEnt st i0 { e0 with cleaned := true }).ent
        from rfl, setEnt_ent] at he
    by_cases hi : i = i0
    · rw [if_pos hi] at he
      injection he with he
      subst he
      subst hi
      rcases hinv.prev_cases i e0 h1 with h0 | ⟨j, e', hj, hent, hsid, hp, hbet⟩
      · left
        exact h0
      · right
        refine ⟨j, e', hj, ?_, hsid, hp, ?_⟩
        · show (if j = i then some _ else st.ent j) = some e'
          rw [if_neg (by omega : ¬ j = i)]
          exact hent
        · intro k e'' hjk hki hk
          rw [show ({ setEnt st i { e0 with cleaned := true } with
              queues := _ } : QState).ent = (setEnt st i { e0 with cleaned := true }).ent
              from rfl, setEnt_ent, if_neg (by omega : ¬ k = i)] at hk
          exact hbet k e'' hjk hki hk
    · rw [if_neg hi] at he
      rcases hinv.prev_cases i e he with h0 | ⟨j, e', hj, hent, hsid, hp, hbet⟩
      · left
        exact h0
      · right
        by_cases hji : j = i0
        · refine ⟨j, { e0 with cleaned := true }, hj, ?_, ?_, hp, ?_⟩
          · show (if j = i0 then some _ else st.ent j) = some _
            rw [if_pos hji]
          · subst hji
            rw [h1] at hent
            injection hent with hent
            show e0.sid = e.sid
            rw [hent]
            exact hsid
          · intro k e'' hjk hki hk
            rw [show ({ setEnt st i0 { e0 with cleaned := true } with
                queues := _ } : QState).ent = (setEnt st i0 { e0 with cleaned := true }).ent
                from rfl, setEnt_ent, if_neg (by omega : ¬ k = i0)] at hk
            exact hbet k e'' hjk hki hk
        · refine ⟨j, e', hj, ?_, hsid, hp, ?_⟩
          · show (if j = i0 then some _ else st.ent j) = some e'
            rw [if_neg hji]
            exact hent
          · intro k e'' hjk hki hk
            rw [show ({ setEnt st i0 { e0 with cleaned := true } with
                queues := _ } : QState).ent = (setEnt st i0 { e0 with cleaned := true }).ent
                from rfl, setEnt_ent] at hk
            by_cases hki0 : k = i0
            · rw [if_pos hki0] at hk
              injection hk with hk
              subst hk
              subst hki0
              exact hbet k e0 hjk hki h1
            · rw [if_neg hki0] at hk
              exact hbet k e'' hjk hki hk
  · -- prev_zero
    intro i e he h0
    rw [show ({ setEnt st i0 { e0 with cleaned := true } with
        queues := _ } : QState).ent = (setEnt st i0 { e0 with cleaned := true }).ent
        from rfl, setEnt_ent] at he
    by_cases hi : i = i0
    · rw [if_pos hi] at he
      injection he with he
      subst he
      subst hi
      intro j e' hj hje hsid
      rw [show ({ setEnt st i { e0 with cleaned := true } with
          queues := _ } : QState).ent = (setEnt st i { e0 with cleaned := true }).ent
          from rfl, setEnt_ent, if_neg (by omega : ¬ j = i)] at hje
      exact hinv.prev_zero i e0 h1 h0 j e' hj hje hsid
    · rw [if_neg hi] at he
      intro j e' hj hje hsid
      rw [show ({ setEnt st i0 { e0 with cleaned := true } with
          queues := _ } : QState).ent = (setEnt st i0 { e0 with cleaned := true }).ent
          from rfl, setEnt_ent] at hje
      by_cases hji : j = i0
      · rw [if_pos hji] at hje
        injection hje with hje
        subst hje
        exact ⟨o0, hdone⟩
      · rw [if_neg hji] at hje
        exact hinv.prev_zero i e he h0 j e' hj hje hsid
  · -- started_prev
    intro i e he hns
    rw [show ({ setEnt st i0 { e0 with cleaned := true } with
        queues := _ } : QState).ent = (setEnt st i0 { e0 with cleaned := true }).ent
        from rfl, setEnt_ent] at he
    by_cases hi : i = i0
    · rw [if_pos hi] at he
      injection he with he
      subst he
      subst hi
      obtain ⟨o, ho⟩ := hinv.started_prev i e0 h1 hns
      exact ⟨o, by rw [hps]; exact ho⟩
    · rw [if_neg hi] at he
      obtain ⟨o, ho⟩ := hinv.started_prev i e he hns
      exact ⟨o, by rw [hps]; exact ho⟩
  · -- cleaned_done
    intro i e he _
    rw [show ({ setEnt st i0 { e0 with cleaned := true } with
        queues := _ } : QState).ent = (setEnt st i0 { e0 with cleaned := true }).ent
        from rfl, setEnt_ent] at he
    by_cases hi : i = i0
    · rw [if_pos hi] at he
      injection he with he
      subst he
      exact ⟨o0, hdone⟩
    · rw [if_neg hi] at he
      rename_i hcl
      exact hinv.cleaned_done i e he hcl
  · -- queues_tail
    intro s p hq
    rw [hqs] at hq
    by_cases hcond : st.queues e0.sid = some e0.next
    · rw [if_pos hcond] at hq
      by_cases hs : s = e0.sid
      · rw [if_pos hs] at hq
        exact Option.noConfusion hq
      · rw [if_neg hs] at hq
        obtain ⟨i, e, hent, hsid, hp, hcl, htail⟩ := hinv.queues_tail s p hq
        have hii0 : ¬ i = i0 := by
          intro hii
          rw [hii, h1] at hent
          injection hent with hent
          rw [← hent] at hsid
          exact hs hsid.symm
        refine ⟨i, e, ?_, hsid, hp, hcl, ?_⟩
        · show (if i = i0 then some _ else st.ent i) = some e
          rw [if_neg hii0]
          exact hent
        · intro k e'' hik hke
          rw [show ({ setEnt st i0 { e0 with cleaned := true } with
              queues := _ } : QState).ent = (setEnt st i0 { e0 with cleaned := true }).ent
              from rfl, setEnt_ent] at hke
          by_cases hki : k = i0
          · rw [if_pos hki] at hke
            injection hke with hke
            subst hke
            show ¬ e0.sid = s
            exact fun hcon => hs hcon.symm
          · rw [if_neg hki] at hke
            exact htail k e'' hik hke
    · rw [if_neg hcond] at hq
      obtain ⟨i, e, hent, hsid, hp, hcl, htail⟩ := hinv.queues_tail s p hq
      have hii0 : ¬ i = i0 := by
        intro hii
        rw [hii, h1] at hent
        injection hent with hent
        apply hcond
        rw [← hent] at hsid hp
        rw [hsid, hq, hp]
      refine ⟨i, e, ?_, hsid, hp, hcl, ?_⟩
      · show (if i = i0 then some _ else st.ent i) = some e
        rw [if_neg hii0]
        exact hent
      · intro k e'' hik hke
        rw [show ({ setEnt st i0 { e0 with cleaned := true } with
            queues := _ } : QState).ent = (setEnt st i0 { e0 with cleaned := true }).ent
            from rfl, setEnt_ent] at hke
        by_cases hki : k = i0
        · rw [if_pos hki] at hke
          injection hke with hke
          subst hke
          subst hki
          exact htail k e0 hik h1
        · rw [if_neg hki] at hke
          exact htail k e'' hik hke
  · -- queues_none
    intro s hqn i e he hsid
    rw [hqs] at hqn
    rw [show ({ setEnt st i0 { e0 with cleaned := true } with
        queues := _ } : QState).ent = (setEnt st i0 { e0 with cleaned := true }).ent
        from rfl, setEnt_ent] at he
    by_cases hcond : st.queues e0.sid = some e0.next
    · rw [if_pos hcond] at hqn
      by_cases hs : s = e0.sid
      · -- the drained session: every entry of it has settled
        obtain ⟨it, et, hentt, hsidt, hpt, hclt, htailt⟩ :=
          hinv.queues_tail e0.sid e0.next hcond
        have h4 := hinv.next_eq it et hentt
        have hit : it = i0 := by omega
        by_cases hi : i = i0
        · rw [if_pos hi] at he
          injection he with he
          subst he
          exact ⟨o0, hdone⟩
        · rw [if_neg hi] at he
          by_cases hlt : i < i0
          · refine hinv.ord i i0 e e0 hlt he h1 ?_ ?_
            · rw [hsid, hs]
            · rw [hdone]
              exact fun hcon => TStat.noConfusion hcon
          · exfalso
            have hgt : it < i := by omega
            exact htailt i e hgt he (by rw [hsid, hs])
      · rw [if_neg hs] at hqn
        by_cases hi : i = i0
        · rw [if_pos hi] at he
          injection he with he
          subst he
          subst hi
          obtain ⟨o, ho⟩ := hinv.queues_none s hqn i e0 h1 hsid
          exact ⟨o, ho⟩
        · rw [if_neg hi] at he
          exact hinv.queues_none s hqn i e he hsid
    · rw [if_neg hcond] at hqn
      by_cases hi : i = i0
      · rw [if_pos hi] at he
        injection he with he
        subst he
        subst hi
        obtain ⟨o, ho⟩ := hinv.queues_none s hqn i e0 h1 hsid
        exact ⟨o, ho⟩
      · rw [if_neg hi] at he
        exact hinv.queues_none s hqn i e he hsid
  · -- ord
    intro i j ei ej hij hei hej hsid hns
    rw [show ({ setEnt st i0 { e0 with cleaned := true } with
        queues := _ } : QState).ent = (setEnt st i0 { e0 with cleaned := true }).ent
        from rfl, setEnt_ent] at hei hej
    by_cases hj : j = i0
    · rw [if_pos hj] at hej
      injection hej with hej
      subst hej
      subst hj
      rw [if_neg (by omega : ¬ i = j)] at hei
      exact hinv.ord i j ei e0 hij hei h1 hsid hns
    · rw [if_neg hj] at hej
      by_cases hi : i = i0
      · rw [if_pos hi] at hei
        injection hei with hei
        subst hei
        exact ⟨o0, hdone⟩
      · rw [if_neg hi] at hei
        exact hinv.ord i j ei ej hij hei hej hsid hns

lemma qinv_step {st st' : QState} (hinv : QInv st) (hstep : QStep st st') : QInv st' := by
  cases hstep with
  | enq sid => exact qinv_enqueue st sid hinv
  | int hint =>
    cases hint with
    | start i e o h1 h2 h3 => exact qinv_start st i e o hinv h1 h2 h3
    | settle i e o h1 h2 => exact qinv_settle st i e o hinv h1 h2
    | cleanup i e o h1 h2 h3 => exact qinv_cleanup st i e o hinv h1 h2 h3

lemma qinv_reach {st : QState} (h : Reach st) : QInv st := by
  induction h with
  | init => exact qinv_init
  | step _ hstep ih => exact qinv_step ih hstep

/-- C1: in every reachable state of the `MessageQueue` promise machine,
(1) a task enqueued later for a session never starts before every
earlier task of that session has fully settled (success or failure);
(2) two tasks of the same session are never running simultaneously;
(3) after a task of a session settles by throwing, its not-yet-started
successor's start transition is enabled — the chain is not abandoned;
and (4) once every enqueue of a session has finished its cleanup (its
pending chain has drained), the map holds no entry for that session. -/
theorem messageQueue_serializes (st : QState) (hreach : Reach st) :
    (∀ i j ei ej, i < j → st.ent i = some ei → st.ent j = some ej →
        ei.sid = ej.sid → ej.tstat ≠ TStat.notStarted → ∃ o, ei.tstat = TStat.done o)
    ∧ (∀ i j ei ej, i ≠ j → st.ent i = some ei → st.ent j = some ej →
        ei.sid = ej.sid → ei.tstat = TStat.running → ej.tstat ≠ TStat.running)
    ∧ (∀ i ei j ej, st.ent i = some ei → ei.tstat = TStat.done Outcome.err →
        st.ent j = some ej → ej.prev = ei.next → ej.tstat = TStat.notStarted →
        QInternal st (setEnt st j { ej with tstat := TStat.running }))
    ∧ (∀ sid, (∀ i ei, st.ent i = some ei → ei.sid = sid → ei.cleaned = true) →
        st.queues sid = none) := by
  have hinv := qinv_reach hreach
  refine ⟨hinv.ord, ?_, ?_, ?_⟩
  · intro i j ei ej hij hei hej hsid hrun hrunj
    rcases Nat.lt_or_ge i j with hlt | hge
    · obtain ⟨o, ho⟩ := hinv.ord i j ei ej hlt hei hej hsid
        (by rw [hrunj]; exact fun hcon => TStat.noConfusion hcon)
      rw [hrun] at ho
      exact TStat.noConfusion ho
    · have hlt : j < i := by omega
      obtain ⟨o, ho⟩ := hinv.ord j i ej ei hlt hej hei hsid.symm
        (by rw [hrun]; exact fun hcon => TStat.noConfusion hcon)
      rw [hrunj] at ho
      exact TStat.noConfusion ho
  · intro i ei j ej hei hdone hej hprev hns
    refine QInternal.start st j ej Outcome.err hej hns ?_
    rw [hprev, hinv.next_eq i ei hei]
    unfold pSettled
    rw [if_neg (by omega : ¬ i + 1 = 0)]
    simp only [Nat.add_sub_cancel]
    rw [hei]
    simp only [Option.some_bind]
    rw [hdone]
    rfl
  · intro sid hall
    cases hq : st.queues sid with
    | none => rfl
    | some p =>
      exfalso
      obtain ⟨i, e, hent, hsid, _, hcl, _⟩ := hinv.queues_tail sid p hq
      rw [hall i e hent hsid] at hcl
      exact Bool.noConfusion hcl

/-! ### A concrete two-task trace for the witness -/

/-- Record of the first enqueue of the witness trace (session `a`,
chained behind the resolved root, promise 1). -/
def qeA (t : TStat) (c : Bool) : QEntry := ⟨"a", 0, 1, t, c⟩

/-- Record of the second enqueue of the witness trace (session `a`,
chained behind promise 1, promise 2). -/
def qeB (t : TStat) (c : Bool) : QEntry := ⟨"a", 1, 2, t, c⟩

/-- Two `enqueue` calls for session `a`. -/
def qs2 : QState := enqueueStep (enqueueStep initQ "a") "a"

/-- Task 1 starts. -/
def qs3 : QState := setEnt qs2 0 (qeA TStat.running false)

/-- Task 1 throws. -/
def qs4 : QState := setEnt qs3 0 (qeA (TStat.done Outcome.err) false)

/-- Task 2 starts anyway (its predecessor settled by rejection). -/
def qs5 : QState := setEnt qs4 1 (qeB TStat.running false)

/-- Task 2 succeeds. -/
def qs6 : QState := setEnt qs5 1 (qeB (TStat.done Outcome.ok) false)

/-- Cleanup of enqueue 1 runs; promise 2 is still the stored tail, so
the map keeps its entry. -/
def qs7 : QState := setEnt qs6 0 (qeA (TStat.done Outcome.err) true)

/-- Cleanup of enqueue 2 runs and deletes the drained map entry. -/
def qW : QState :=
  { setEnt qs7 1 (qeB (TStat.done Outcome.ok) true) with
    queues := fun s => if s = "a" then none else qs7.queues s }

lemma reach_qW : Reach qW := by
  have r2 : Reach qs2 :=
    Reach.step (Reach.step Reach.init (QStep.enq initQ "a")) (QStep.enq _ "a")
  have r3 : Reach qs3 := Reach.step r2
    (QStep.int (QInternal.start qs2 0 (qeA TStat.notStarted false) Outcome.ok rfl rfl rfl))
  have r4 : Reach qs4 := Reach.step r3
    (QStep.int (QInternal.settle qs3 0 (qeA TStat.running false) Outcome.err rfl rfl))
  have r5 : Reach qs5 := Reach.step r4
    (QStep.int (QInternal.start qs4 1 (qeB TStat.notStarted false) Outcome.err rfl rfl rfl))
  have r6 : Reach qs6 := Reach.step r5
    (QStep.int (QInternal.settle qs5 1 (qeB TStat.running false) Outcome.ok rfl rfl))
  have r7 : Reach qs7 := Reach.step r6
    (QStep.int (QInternal.cleanup qs6 0 (qeA (TStat.done Outcome.err) false) Outcome.err
      rfl rfl rfl))
  exact Reach.step r7
    (QStep.int (QInternal.cleanup qs7 1 (qeB (TStat.done Outcome.ok) false) Outcome.ok
      rfl rfl rfl))

/-- Witness for C1 on the concrete two-task trace: both tasks ran to
completion in order (the second despite the first throwing) and the
drained map entry for session `a` was removed. -/
theorem messageQueue_serializes_witness :
    Reach qW
    ∧ (∃ o, (qeA (TStat.done Outcome.err) true).tstat = TStat.done o)
    ∧ qW.queues "a" = none := by
  refine ⟨reach_qW, ?_, ?_⟩
  · exact (messageQueue_serializes qW reach_qW).1 0 1
      (qeA (TStat.done Outcome.err) true) (qeB (TStat.done Outcome.ok) true)
      (by omega) rfl rfl rfl (by decide)
  · refine (messageQueue_serializes qW reach_qW).2.2.2 "a" ?_
    intro i ei hent hsid
    by_cases h1 : i = 1
    · subst h1
      rw [show qW.ent 1 = some (qeB (TStat.done Outcome.ok) true) from rfl] at hent
      injection hent with hent
      rw [← hent]
      rfl
    · by_cases h0 : i = 0
      · subst h0
        rw [show qW.ent 0 = some (qeA (TStat.done Outcome.err) true) from rfl] at hent
        injection hent with hent
        rw [← hent]
        rfl
      · exfalso
        have hnone : qW.ent i = none := by
          simp [qW, qs7, qs6, qs5, qs4, qs3, qs2, setEnt, enqueueStep, initQ, h0, h1]
        rw [hnone] at hent
        exact Option.noConfusion hent

end Aperture
